import Mathlib

/-!
# Verification of the BookmarkMerger core pipeline

A shallow embedding of `src/bookmark_merger.py`: the bookmark-tree extractor
(`parse_bookmarks` / `process_dl` / `process_container` / `process_dt`),
the recursive merger with configurable duplicate detection
(`recursive_merge` / `get_key`), and the Netscape serializer
(`generate_netscape_html` / `write_items` / `escape_html`).

Python dictionaries carrying `'type': 'folder' | 'bookmark'` become a sum
type; values that may be `None` become `Option String`; the in-place
mutation of the merged list and of a found folder's `children` list becomes
explicit reconstruction of the list; the global `seen_keys` set and the
`duplicate_count` counter become threaded state.
-/

namespace BookmarkMerger

/-- A node of the domain tree, mirroring the extractor's dictionaries:
`{'type': 'folder', 'title', 'add_date', 'last_modified', 'children'}` and
`{'type': 'bookmark', 'title', 'url', 'add_date', 'icon'}`.  The `title`
key is always set by the extractor (from `get_text()`, a string); the
attribute keys are set from `Tag.get`, which yields `None` when the
attribute is absent, hence `Option String`. -/
inductive Item where
  | folder (title : String) (add_date last_modified : Option String)
      (children : List Item)
  | bookmark (title : String) (url : Option String)
      (add_date icon : Option String)
deriving Repr

mutual

/-- Boolean equality on items (the derived instance cannot handle the
nested `List Item`). -/
def Item.beq : Item → Item → Bool
  | .folder t a l ch, .folder t2 a2 l2 ch2 =>
      t == t2 && a == a2 && l == l2 && Item.beqs ch ch2
  | .bookmark t u a i, .bookmark t2 u2 a2 i2 =>
      t == t2 && u == u2 && a == a2 && i == i2
  | _, _ => false

/-- Boolean equality on item lists. -/
def Item.beqs : List Item → List Item → Bool
  | [], [] => true
  | x :: xs, y :: ys => Item.beq x y && Item.beqs xs ys
  | _, _ => false

end

mutual

theorem Item.beq_iff : ∀ a b : Item, Item.beq a b = true ↔ a = b
  | .folder t a l ch, .folder t2 a2 l2 ch2 => by
      simp [Item.beq, Item.beqs_iff ch ch2, and_assoc]
  | .bookmark t u a i, .bookmark t2 u2 a2 i2 => by
      simp [Item.beq, and_assoc]
  | .folder _ _ _ _, .bookmark _ _ _ _ => by simp [Item.beq]
  | .bookmark _ _ _ _, .folder _ _ _ _ => by simp [Item.beq]

theorem Item.beqs_iff : ∀ as bs : List Item, Item.beqs as bs = true ↔ as = bs
  | [], [] => by simp [Item.beqs]
  | x :: xs, y :: ys => by
      simp [Item.beqs, Item.beq_iff x y, Item.beqs_iff xs ys]
  | [], _ :: _ => by simp [Item.beqs]
  | _ :: _, [] => by simp [Item.beqs]

end

instance : DecidableEq Item := fun a b => decidable_of_iff _ (Item.beq_iff a b)

/-- The four booleans read from the UI checkboxes in `merge_bookmarks`. -/
structure MergeConfig where
  remove_duplicates : Bool
  crit_folder : Bool
  crit_title : Bool
  crit_url : Bool
deriving DecidableEq, Repr

/-- One component of a duplicate-detection key.  The Python `get_key`
builds a heterogeneous tuple whose entries are a path tuple, a url
(string or `None`) and a title string; a sum type preserves exactly the
tuple's equality semantics. -/
inductive KeyComp where
  | path (p : List String)
  | url (u : Option String)
  | title (t : String)
deriving DecidableEq, Repr

/-- `get_key(item, path)` from `merge_bookmarks`:
`k = []`, append `path` if `crit_folder`, append `item.get('url')` if
`crit_url`, append `item.get('title')` if `crit_title`, return `tuple(k)`. -/
def get_key (c : MergeConfig) (title : String) (url : Option String)
    (path : List String) : List KeyComp :=
  (if c.crit_folder then [KeyComp.path path] else []) ++
  (if c.crit_url then [KeyComp.url url] else []) ++
  (if c.crit_title then [KeyComp.title title] else [])

/-! ## The HTML escaper

`escape_html(text)` is
`text.replace("&","&amp;").replace("<","&lt;").replace(">","&gt;")`.
Python's `str.replace` with a single-character pattern substitutes every
occurrence of that character, scanning left to right; on `List Char` this
is exactly a `flatMap` of a per-character substitution. -/

/-- Python `s.replace(c, rep)` for a single-character pattern `c`. -/
def replaceChar (c : Char) (rep : List Char) (s : List Char) : List Char :=
  s.flatMap fun x => if x = c then rep else [x]

/-- `escape_html` on character lists: the three `replace` calls of the
source, in source order (ampersand first, then `<`, then `>`). -/
def escapeChars (s : List Char) : List Char :=
  replaceChar '>' ('&' :: 'g' :: 't' :: ';' :: [])
    (replaceChar '<' ('&' :: 'l' :: 't' :: ';' :: [])
      (replaceChar '&' ('&' :: 'a' :: 'm' :: 'p' :: ';' :: []) s))

/-- `escape_html` on `String`, wrapping `escapeChars`. -/
def escape_html (s : String) : String := String.mk (escapeChars s.data)

/-- The per-character substitution the spec describes: `&`, `<`, `>` map to
their entities, every other character is left alone. -/
def escCharSpec (x : Char) : List Char :=
  if x = '&' then '&' :: 'a' :: 'm' :: 'p' :: ';' :: []
  else if x = '<' then '&' :: 'l' :: 't' :: ';' :: []
  else if x = '>' then '&' :: 'g' :: 't' :: ';' :: []
  else [x]

/-! ## The generic markup tree

BeautifulSoup hands the extractor a tree of `Tag`s and `NavigableString`s;
`child.name` is the (lowercased) tag name for a `Tag` and `None` for a
string; `tag.get(k)` looks an attribute up (`None` when absent);
`tag.get_text()` concatenates all descendant strings;
`tag.find(name, recursive=False)` returns the first direct child `Tag`
with that name.  The identity tests `child is h3` / `child is a` in
`process_dt` are rendered by comparing each child's position against the
position `find` located. -/

/-- A generic markup node: a tag with attributes and ordered children, or
a text run. -/
inductive MNode where
  | elem (tag : String) (attrs : List (String × String)) (children : List MNode)
  | text (s : String)
deriving Repr

/-- `child.name`: the tag name, `none` for a text node. -/
def MNode.name : MNode → Option String
  | .elem t _ _ => some t
  | .text _ => none

/-- The ordered direct children (`tag.children`). -/
def childrenOf : MNode → List MNode
  | .elem _ _ kids => kids
  | .text _ => []

/-- `tag.get(k)`: attribute lookup. -/
def attOf : MNode → String → Option String
  | .elem _ attrs _, k => attrs.lookup k
  | .text _, _ => none

/-- Position of the first direct child that is an element with the given
tag (`find(tag, recursive=False)` as an index). -/
def findDirectIdx (tag : String) : List MNode → Option Nat
  | [] => none
  | MNode.elem t _ _ :: rest =>
      if t = tag then some 0 else (findDirectIdx tag rest).map (· + 1)
  | MNode.text _ :: rest => (findDirectIdx tag rest).map (· + 1)

/-- Fetch the node at an optional position. -/
def nodeAt (cs : List MNode) : Option Nat → Option MNode
  | none => none
  | some i => cs[i]?

theorem nodeAt_mem {cs : List MNode} {oi : Option Nat} {c : MNode}
    (h : nodeAt cs oi = some c) : c ∈ cs := by
  match oi with
  | none => simp [nodeAt] at h
  | some i =>
    simp only [nodeAt] at h
    exact List.getElem?_mem h

theorem sizeOf_lt_of_mem_children {c dt : MNode} (h : c ∈ childrenOf dt) :
    sizeOf c < sizeOf dt := by
  match dt with
  | .text _ => simp [childrenOf] at h
  | .elem t a kids =>
    simp only [childrenOf] at h
    have := List.sizeOf_lt_of_mem h
    simp only [MNode.elem.sizeOf_spec]
    omega

/-- `findDirectIdx` points at an element with the sought tag. -/
theorem findDirectIdx_name {tag : String} :
    ∀ {cs : List MNode} {n : Nat}, findDirectIdx tag cs = some n →
      ∃ c, cs[n]? = some c ∧ c.name = some tag := by
  intro cs
  induction cs with
  | nil => intro n h; simp [findDirectIdx] at h
  | cons c rest ih =>
    intro n h
    match c with
    | MNode.elem t a kids =>
      simp only [findDirectIdx] at h
      by_cases ht : t = tag
      · subst ht
        simp at h
        subst h
        exact ⟨MNode.elem t a kids, by simp, by simp [MNode.name]⟩
      · simp only [if_neg ht, Option.map_eq_some'] at h
        obtain ⟨m, hm, rfl⟩ := h
        obtain ⟨d, hd, hname⟩ := ih hm
        exact ⟨d, by simpa using hd, hname⟩
    | MNode.text s =>
      simp only [findDirectIdx, Option.map_eq_some'] at h
      obtain ⟨m, hm, rfl⟩ := h
      obtain ⟨d, hd, hname⟩ := ih hm
      exact ⟨d, by simpa using hd, hname⟩

mutual

/-- `get_text()`: concatenation of all descendant text runs. -/
def getText : MNode → String
  | .text s => s
  | .elem _ _ kids => getTexts kids

/-- `get_text()` over a child list. -/
def getTexts : List MNode → String
  | [] => ""
  | c :: cs => getText c ++ getTexts cs

end

/-! ## The extractor -/

mutual

/-- `process_dl`: iterate the children, descending into `dt` items and
transparently into `p` containers. -/
def process_dl : MNode → List Item
  | .text _ => []
  | .elem _ _ kids => dlChildren kids
termination_by e => (sizeOf e, 1)

/-- The `for child in dl_element.children` loop of `process_dl`. -/
def dlChildren : List MNode → List Item
  | [] => []
  | c :: cs =>
    (if c.name = some "dt" then process_dt c
     else if c.name = some "p" then process_container c
     else []) ++ dlChildren cs
termination_by cs => (sizeOf cs, 0)

/-- `process_container`: same loop as `process_dl`. -/
def process_container : MNode → List Item
  | .text _ => []
  | .elem _ _ kids => containerChildren kids
termination_by e => (sizeOf e, 1)

/-- The `for child in element.children` loop of `process_container`. -/
def containerChildren : List MNode → List Item
  | [] => []
  | c :: cs =>
    (if c.name = some "dt" then process_dt c
     else if c.name = some "p" then process_container c
     else []) ++ containerChildren cs
termination_by cs => (sizeOf cs, 0)

/-- The item a `dt` element denotes by itself, computed from its direct
children: first direct `h3` child (folder, with a first direct `dl` child
extracted as its children), else first direct `a` child (bookmark), else
nothing. -/
def dtOwnItems (kids : List MNode) : List Item :=
  match nodeAt kids (findDirectIdx "h3" kids) with
  | some h3 =>
    let ch : List Item :=
      match hdl : nodeAt kids (findDirectIdx "dl" kids) with
      | some dl =>
        have : sizeOf dl < sizeOf kids := List.sizeOf_lt_of_mem (nodeAt_mem hdl)
        process_dl dl
      | none => []
    [Item.folder (getText h3) (attOf h3 "add_date")
      (attOf h3 "last_modified") ch]
  | none =>
    match nodeAt kids (findDirectIdx "a" kids) with
    | some a =>
      [Item.bookmark (getText a) (attOf a "href") (attOf a "add_date")
        (attOf a "icon")]
    | none => []
termination_by (sizeOf kids, 0)

/-- `process_dt`: the term's own item followed by the recovery loop over
its children, which skips the child at the position `find('h3')` or
`find('a')` located (`child is h3 or child is a`) and every `dl` child,
and recurses into `dt` and `p` children. -/
def process_dt (dt : MNode) : List Item :=
  match dt with
  | .text _ => []
  | .elem _ _ kids =>
    dtOwnItems kids ++
      dtLoop (findDirectIdx "h3" kids) (findDirectIdx "a" kids) 0 kids
termination_by (sizeOf dt, 2)

/-- The `for child in dt_element.children` recovery loop of `process_dt`,
carrying the current position `i`. -/
def dtLoop (h3i ai : Option Nat) (i : Nat) : List MNode → List Item
  | [] => []
  | c :: cs =>
    (if some i = h3i ∨ some i = ai then []
     else if c.name = some "dl" then []
     else if c.name = some "dt" then process_dt c
     else if c.name = some "p" then process_container c
     else []) ++ dtLoop h3i ai (i + 1) cs
termination_by cs => (sizeOf cs, 0)

end

/-- `parse_bookmarks` after the file was read and parsed into a markup
document: find the first `dl` element anywhere in the document and run
`process_dl` on it; no `dl` (or an unreadable file) yields `[]`. -/
def parse_markup (doc : List MNode) : List Item :=
  match findFirstDl doc with
  | some dl => process_dl dl
  | none => []
where
  /-- `soup.find('dl')`: first `dl` element in document order. -/
  findFirstDl : List MNode → Option MNode
    | [] => none
    | MNode.elem t a kids :: rest =>
      if t = "dl" then some (MNode.elem t a kids)
      else match findFirstDl kids with
        | some dl => some dl
        | none => findFirstDl rest
    | MNode.text _ :: rest => findFirstDl rest

/-! ## The merger

`recursive_merge(target, source, current_path)` from `merge_bookmarks`.
The Python mutates `target` in place (appending, or descending into a
found folder's `children` list) and updates the closure variables
`seen_keys` and `duplicate_count`; here the updated target list and the
two state components are returned.  The linear scan
`for t in target: if t['type']=='folder' and t['title']==folder_title`
followed by in-place mutation of the first match (or `target.append` when
there is no match) becomes the list walk `merge_folder`. -/

mutual

/-- The `for item in source` loop of `recursive_merge`. -/
def recursive_merge (c : MergeConfig) (target source : List Item)
    (path : List String) (seen : List (List KeyComp)) (dups : Nat) :
    List Item × List (List KeyComp) × Nat :=
  match source with
  | [] => (target, seen, dups)
  | item :: rest =>
    let r := merge_item c target item path seen dups
    recursive_merge c r.1 rest path r.2.1 r.2.2
termination_by (sizeOf source, 0, 0)

/-- One iteration of the `recursive_merge` loop body. -/
def merge_item (c : MergeConfig) (target : List Item) (item : Item)
    (path : List String) (seen : List (List KeyComp)) (dups : Nat) :
    List Item × List (List KeyComp) × Nat :=
  match item with
  | .folder t ad lm ch => merge_folder c target t ad lm ch path seen dups
  | .bookmark t u ad ic =>
    if c.remove_duplicates then
      let key := get_key c t u path
      if key ∈ seen then (target, seen, dups + 1)
      else (target ++ [Item.bookmark t u ad ic], key :: seen, dups)
    else (target ++ [Item.bookmark t u ad ic], seen, dups)
termination_by (sizeOf item, 0, 0)

/-- The folder branch of the loop body: find the first folder of `target`
with the same title and merge into its children (mutation rendered as
rebuilding the scanned prefix), else append a fresh folder at the end and
merge into its empty children. -/
def merge_folder (c : MergeConfig) (target : List Item) (t : String)
    (ad lm : Option String) (ch : List Item) (path : List String)
    (seen : List (List KeyComp)) (dups : Nat) :
    List Item × List (List KeyComp) × Nat :=
  match target with
  | [] =>
    let r := recursive_merge c [] ch (path ++ [t]) seen dups
    ([Item.folder t ad lm r.1], r.2.1, r.2.2)
  | x :: xs =>
    match x with
    | Item.folder t2 ad2 lm2 ch2 =>
      if t2 = t then
        let r := recursive_merge c ch2 ch (path ++ [t]) seen dups
        (Item.folder t2 ad2 lm2 r.1 :: xs, r.2.1, r.2.2)
      else
        let r := merge_folder c xs t ad lm ch path seen dups
        (Item.folder t2 ad2 lm2 ch2 :: r.1, r.2.1, r.2.2)
    | Item.bookmark t2 u2 ad2 ic2 =>
      let r := merge_folder c xs t ad lm ch path seen dups
      (Item.bookmark t2 u2 ad2 ic2 :: r.1, r.2.1, r.2.2)
termination_by (sizeOf ch, 1, sizeOf target)

end

/-- The per-file loop of `merge_bookmarks`: each parsed file is merged
into the accumulated `merged_bookmarks` with the shared `seen_keys` set
and duplicate counter (the path restarts at the empty tuple per file). -/
def merge_files (c : MergeConfig) (acc : List Item × List (List KeyComp) × Nat) :
    List (List Item) → List Item × List (List KeyComp) × Nat
  | [] => acc
  | f :: fs => merge_files c (recursive_merge c acc.1 f [] acc.2.1 acc.2.2) fs

/-- The whole merge phase: start from an empty merged list, empty seen-key
set and zero duplicates. -/
def merge_all (c : MergeConfig) (files : List (List Item)) :
    List Item × List (List KeyComp) × Nat :=
  merge_files c ([], [], 0) files

mutual

/-- Number of bookmark leaves in an item. -/
def bmCount : Item → Nat
  | .folder _ _ _ ch => bmCounts ch
  | .bookmark _ _ _ _ => 1

/-- Number of bookmark leaves in an item list. -/
def bmCounts : List Item → Nat
  | [] => 0
  | x :: xs => bmCount x + bmCounts xs

end

mutual

/-- The urls of all bookmark leaves of an item, in depth-first order. -/
def itemUrls : Item → List (Option String)
  | .folder _ _ _ ch => listUrls ch
  | .bookmark _ u _ _ => [u]

/-- The urls of all bookmark leaves of an item list. -/
def listUrls : List Item → List (Option String)
  | [] => []
  | x :: xs => itemUrls x ++ listUrls xs

end

theorem escapeChars_eq_flatMap (s : List Char) :
    escapeChars s = s.flatMap escCharSpec := by
  induction s with
  | nil => rfl
  | cons c rest ih =>
    simp only [escapeChars, replaceChar, List.flatMap_cons] at *
    by_cases hamp : c = '&'
    · subst hamp; simp [escCharSpec, ih]
    · by_cases hlt : c = '<'
      · subst hlt; simp [escCharSpec, ih]
      · by_cases hgt : c = '>'
        · subst hgt; simp [escCharSpec, ih]
        · simp [escCharSpec, hamp, hlt, hgt, ih]

/-- What §4.1 step 2/3 does to one direct child: recursively extract a
`dt` child with `process_dt`, a `p` child with `process_container`,
nothing otherwise. -/
def extractChild (c : MNode) : List Item :=
  if c.name = some "dt" then process_dt c
  else if c.name = some "p" then process_container c
  else []

mutual

/-- `true` on bookmarks whose url is present and nonempty, recursively. -/
def noUrllessBookmark : Item → Bool
  | .folder _ _ _ ch => noUrllessBookmarks ch
  | .bookmark _ u _ _ => match u with | some s => !(s == "") | none => false

/-- `noUrllessBookmark` over a tree list. -/
def noUrllessBookmarks : List Item → Bool
  | [] => true
  | x :: xs => noUrllessBookmark x && noUrllessBookmarks xs

end

/-- `true` iff every element of the list is a bookmark leaf. -/
def allBookmarks : List Item → Bool
  | [] => true
  | Item.bookmark _ _ _ _ :: xs => allBookmarks xs
  | _ => false

/-! ## Merge lemmas -/

theorem bmCounts_append (xs ys : List Item) :
    bmCounts (xs ++ ys) = bmCounts xs + bmCounts ys := by
  induction xs with
  | nil => simp [bmCounts]
  | cons x xs ih => simp [bmCounts, ih]; omega

theorem listUrls_append (xs ys : List Item) :
    listUrls (xs ++ ys) = listUrls xs ++ listUrls ys := by
  induction xs with
  | nil => simp [listUrls]
  | cons x xs ih => simp [listUrls, ih]

mutual

/-- Every bookmark reaching the merge is either appended or counted as a
duplicate: bookmark count of the result plus final duplicate count equals
bookmark count of target and source plus the entry duplicate count. -/
theorem recursive_merge_count (c : MergeConfig) (target source : List Item)
    (path : List String) (seen : List (List KeyComp)) (dups : Nat) :
    bmCounts (recursive_merge c target source path seen dups).1 +
        (recursive_merge c target source path seen dups).2.2 =
      bmCounts target + bmCounts source + dups := by
  match source with
  | [] => simp [recursive_merge, bmCounts]
  | item :: rest =>
    rw [recursive_merge]
    have h1 := merge_item_count c target item path seen dups
    have h2 := recursive_merge_count c
      (merge_item c target item path seen dups).1 rest path
      (merge_item c target item path seen dups).2.1
      (merge_item c target item path seen dups).2.2
    simp only [bmCounts] at *
    omega
termination_by (sizeOf source, 0, 0)

/-- Counting invariant for one source item. -/
theorem merge_item_count (c : MergeConfig) (target : List Item) (item : Item)
    (path : List String) (seen : List (List KeyComp)) (dups : Nat) :
    bmCounts (merge_item c target item path seen dups).1 +
        (merge_item c target item path seen dups).2.2 =
      bmCounts target + bmCount item + dups := by
  match item with
  | .folder t ad lm ch =>
    rw [merge_item]
    have := merge_folder_count c target t ad lm ch path seen dups
    simp only [bmCount]
    omega
  | .bookmark t u ad ic =>
    rw [merge_item]
    by_cases hrd : c.remove_duplicates
    · by_cases hk : get_key c t u path ∈ seen <;>
        (simp [hrd, hk, bmCounts_append, bmCounts, bmCount]; try omega)
    · simp only [Bool.not_eq_true] at hrd
      simp [hrd, bmCounts_append, bmCounts, bmCount]
      try omega
termination_by (sizeOf item, 0, 0)

/-- Counting invariant for a source folder merged into `target`. -/
theorem merge_folder_count (c : MergeConfig) (target : List Item) (t : String)
    (ad lm : Option String) (ch : List Item) (path : List String)
    (seen : List (List KeyComp)) (dups : Nat) :
    bmCounts (merge_folder c target t ad lm ch path seen dups).1 +
        (merge_folder c target t ad lm ch path seen dups).2.2 =
      bmCounts target + bmCounts ch + dups := by
  match target with
  | [] =>
    have := recursive_merge_count c [] ch (path ++ [t]) seen dups
    simp [merge_folder, bmCounts, bmCount] at *
    omega
  | Item.folder t2 ad2 lm2 ch2 :: xs =>
    by_cases ht2 : t2 = t
    · have := recursive_merge_count c ch2 ch (path ++ [t]) seen dups
      simp [merge_folder, ht2, bmCounts, bmCount] at *
      omega
    · have := merge_folder_count c xs t ad lm ch path seen dups
      simp [merge_folder, ht2, bmCounts, bmCount] at *
      omega
  | Item.bookmark t2 u2 ad2 ic2 :: xs =>
    have := merge_folder_count c xs t ad lm ch path seen dups
    simp [merge_folder, bmCounts, bmCount] at *
    omega
termination_by (sizeOf ch, 1, sizeOf target)

end

/-- With dedup disabled, a bookmark-only block of the source is appended
verbatim and the state is untouched. -/
theorem recursive_merge_bookmarks_append (c : MergeConfig)
    (hc : c.remove_duplicates = false) :
    ∀ (xs : List Item), allBookmarks xs = true →
      ∀ (ys target : List Item) (path : List String)
        (seen : List (List KeyComp)) (dups : Nat),
        recursive_merge c target (xs ++ ys) path seen dups =
          recursive_merge c (target ++ xs) ys path seen dups := by
  intro xs
  induction xs with
  | nil => intro _ ys target path seen dups; simp
  | cons x xs ih =>
    intro hall ys target path seen dups
    match x with
    | Item.folder _ _ _ _ => simp [allBookmarks] at hall
    | Item.bookmark t u ad ic =>
      have hxs : allBookmarks xs = true := by
        simpa [allBookmarks] using hall
      rw [List.cons_append, recursive_merge]
      simp only [merge_item, hc, Bool.false_eq_true, if_false]
      rw [ih hxs ys (target ++ [Item.bookmark t u ad ic]) path seen dups]
      simp

/-- A folder merged into a bookmark-only destination is appended at the
end, with children merged into an empty list. -/
theorem merge_folder_no_match (c : MergeConfig) :
    ∀ (target : List Item), allBookmarks target = true →
      ∀ (t : String) (ad lm : Option String) (ch : List Item)
        (path : List String) (seen : List (List KeyComp)) (dups : Nat),
        merge_folder c target t ad lm ch path seen dups =
          (target ++ [Item.folder t ad lm
              (recursive_merge c [] ch (path ++ [t]) seen dups).1],
            (recursive_merge c [] ch (path ++ [t]) seen dups).2.1,
            (recursive_merge c [] ch (path ++ [t]) seen dups).2.2) := by
  intro target
  induction target with
  | nil => intro _ t ad lm ch path seen dups; simp [merge_folder]
  | cons x xs ih =>
    intro hall t ad lm ch path seen dups
    match x with
    | Item.folder _ _ _ _ => simp [allBookmarks] at hall
    | Item.bookmark t2 u2 ad2 ic2 =>
      have hxs : allBookmarks xs = true := by
        simpa [allBookmarks] using hall
      simp [merge_folder, ih hxs]

/-- A folder merged into a destination whose first same-titled folder sits
after a bookmark-only prefix descends into that folder in place. -/
theorem merge_folder_match (c : MergeConfig) :
    ∀ (pre : List Item), allBookmarks pre = true →
      ∀ (t : String) (ad2 lm2 : Option String) (ch2 post : List Item)
        (ad lm : Option String) (ch : List Item) (path : List String)
        (seen : List (List KeyComp)) (dups : Nat),
        merge_folder c (pre ++ Item.folder t ad2 lm2 ch2 :: post)
            t ad lm ch path seen dups =
          (pre ++ Item.folder t ad2 lm2
              (recursive_merge c ch2 ch (path ++ [t]) seen dups).1 :: post,
            (recursive_merge c ch2 ch (path ++ [t]) seen dups).2.1,
            (recursive_merge c ch2 ch (path ++ [t]) seen dups).2.2) := by
  intro pre
  induction pre with
  | nil =>
    intro _ t ad2 lm2 ch2 post ad lm ch path seen dups
    simp [merge_folder]
  | cons x xs ih =>
    intro hall t ad2 lm2 ch2 post ad lm ch path seen dups
    match x with
    | Item.folder _ _ _ _ => simp [allBookmarks] at hall
    | Item.bookmark t2 u2 ad2' ic2 =>
      have hxs : allBookmarks xs = true := by
        simpa [allBookmarks] using hall
      rw [List.cons_append]
      simp [merge_folder, ih hxs]

/-- With dedup disabled, a bookmark-only source list is appended verbatim
(untouched state). -/
theorem recursive_merge_bookmarks (c : MergeConfig)
    (hc : c.remove_duplicates = false) (xs : List Item)
    (hall : allBookmarks xs = true) (target : List Item) (path : List String)
    (seen : List (List KeyComp)) (dups : Nat) :
    recursive_merge c target xs path seen dups = (target ++ xs, seen, dups) := by
  have h := recursive_merge_bookmarks_append c hc xs hall [] target path seen dups
  rw [List.append_nil] at h
  rw [h, recursive_merge]

/-- The configuration of the spec's idempotent-merge property: dedup on,
by URL alone. -/
def urlConf : MergeConfig := ⟨true, false, false, true⟩

theorem get_key_urlConf (t : String) (u : Option String) (p : List String) :
    get_key urlConf t u p = [KeyComp.url u] := by
  simp [get_key, urlConf]

theorem urlConf_rd : urlConf.remove_duplicates = true := rfl

mutual

/-- URL-only dedup: the final seen-key set holds exactly the entry keys
plus the url keys of the source, and a url is in the merged list iff it
was in the target or is a source url whose key was not already seen. -/
theorem rm_url_state (target source : List Item) (path : List String)
    (seen : List (List KeyComp)) (dups : Nat) :
    (∀ k, k ∈ (recursive_merge urlConf target source path seen dups).2.1 ↔
      (k ∈ seen ∨ ∃ u ∈ listUrls source, k = [KeyComp.url u])) ∧
    (∀ u, u ∈ listUrls (recursive_merge urlConf target source path seen dups).1 ↔
      (u ∈ listUrls target ∨
        (u ∈ listUrls source ∧ [KeyComp.url u] ∉ seen))) := by
  match source with
  | [] =>
    rw [recursive_merge]
    simp [listUrls]
  | item :: rest =>
    rw [recursive_merge]
    obtain ⟨hs1, ht1⟩ := mi_url_state target item path seen dups
    obtain ⟨hs2, ht2⟩ := rm_url_state
      (merge_item urlConf target item path seen dups).1 rest path
      (merge_item urlConf target item path seen dups).2.1
      (merge_item urlConf target item path seen dups).2.2
    constructor
    · intro k
      rw [hs2 k, hs1 k]
      constructor
      · rintro ((h | ⟨u, hu, rfl⟩) | ⟨u, hu, rfl⟩)
        · exact Or.inl h
        · exact Or.inr ⟨u, by simp [listUrls, hu], rfl⟩
        · exact Or.inr ⟨u, by simp [listUrls, hu], rfl⟩
      · rintro (h | ⟨u, hu, rfl⟩)
        · exact Or.inl (Or.inl h)
        · have hsplit : u ∈ itemUrls item ∨ u ∈ listUrls rest := by
            simpa [listUrls] using hu
          rcases hsplit with h' | h'
          · exact Or.inl (Or.inr ⟨u, h', rfl⟩)
          · exact Or.inr ⟨u, h', rfl⟩
    · intro u
      rw [ht2 u, ht1 u, hs1 [KeyComp.url u]]
      have hex : (∃ u' ∈ itemUrls item, [KeyComp.url u] = [KeyComp.url u']) ↔
          u ∈ itemUrls item := by
        constructor
        · rintro ⟨u', hu', he⟩
          simp only [List.cons.injEq, KeyComp.url.injEq, and_true] at he
          rwa [he]
        · intro h
          exact ⟨u, h, rfl⟩
      rw [hex]
      have hmem : u ∈ listUrls (item :: rest) ↔
          u ∈ itemUrls item ∨ u ∈ listUrls rest := by
        simp [listUrls]
      rw [hmem]
      tauto
termination_by (sizeOf source, 0, 0)

/-- URL-only dedup state characterization, one item. -/
theorem mi_url_state (target : List Item) (item : Item) (path : List String)
    (seen : List (List KeyComp)) (dups : Nat) :
    (∀ k, k ∈ (merge_item urlConf target item path seen dups).2.1 ↔
      (k ∈ seen ∨ ∃ u ∈ itemUrls item, k = [KeyComp.url u])) ∧
    (∀ u, u ∈ listUrls (merge_item urlConf target item path seen dups).1 ↔
      (u ∈ listUrls target ∨
        (u ∈ itemUrls item ∧ [KeyComp.url u] ∉ seen))) := by
  match item with
  | .folder t ad lm ch =>
    rw [merge_item]
    have h := mf_url_state target t ad lm ch path seen dups
    simpa [itemUrls] using h
  | .bookmark t u ad ic =>
    rw [merge_item, get_key_urlConf, if_pos urlConf_rd]
    by_cases hk : [KeyComp.url u] ∈ seen
    · rw [if_pos hk]
      constructor
      · intro k
        simp only [itemUrls, List.mem_singleton, exists_eq_left]
        constructor
        · exact fun h => Or.inl h
        · rintro (h | h)
          · exact h
          · rw [h]; exact hk
      · intro u'
        simp only [itemUrls, List.mem_singleton]
        constructor
        · exact fun h => Or.inl h
        · rintro (h | ⟨rfl, hnot⟩)
          · exact h
          · exact absurd hk hnot
    · rw [if_neg hk]
      constructor
      · intro k
        simp only [List.mem_cons, itemUrls, List.mem_singleton]
        constructor
        · rintro (h | h)
          · exact Or.inr ⟨u, Or.inl rfl, h⟩
          · exact Or.inl h
        · rintro (h | ⟨u', rfl | h0, he⟩)
          · exact Or.inr h
          · exact Or.inl he
          · exact absurd h0 (List.not_mem_nil u')
      · intro u'
        rw [listUrls_append]
        simp only [List.mem_append, listUrls, itemUrls, List.mem_singleton,
          List.append_nil]
        constructor
        · rintro (h | h)
          · exact Or.inl h
          · exact Or.inr ⟨h, h ▸ hk⟩
        · rintro (h | ⟨rfl, _⟩)
          · exact Or.inl h
          · exact Or.inr rfl
termination_by (sizeOf item, 0, 0)

/-- URL-only dedup state characterization, one source folder. -/
theorem mf_url_state (target : List Item) (t : String)
    (ad lm : Option String) (ch : List Item) (path : List String)
    (seen : List (List KeyComp)) (dups : Nat) :
    (∀ k, k ∈ (merge_folder urlConf target t ad lm ch path seen dups).2.1 ↔
      (k ∈ seen ∨ ∃ u ∈ listUrls ch, k = [KeyComp.url u])) ∧
    (∀ u, u ∈ listUrls (merge_folder urlConf target t ad lm ch path seen dups).1 ↔
      (u ∈ listUrls target ∨
        (u ∈ listUrls ch ∧ [KeyComp.url u] ∉ seen))) := by
  match target with
  | [] =>
    rw [merge_folder]
    obtain ⟨hs, ht⟩ := rm_url_state [] ch (path ++ [t]) seen dups
    refine ⟨hs, fun u => ?_⟩
    have h := ht u
    simp only [listUrls, itemUrls, List.append_nil, List.not_mem_nil,
      false_or] at h ⊢
    exact h
  | Item.folder t2 ad2 lm2 ch2 :: xs =>
    by_cases ht2 : t2 = t
    · obtain ⟨hs, ht⟩ := rm_url_state ch2 ch (path ++ [t]) seen dups
      rw [merge_folder]
      simp only [ht2, if_pos rfl]
      refine ⟨hs, fun u => ?_⟩
      have h := ht u
      simp only [listUrls, itemUrls, List.mem_append] at h ⊢
      tauto
    · obtain ⟨hs, ht⟩ := mf_url_state xs t ad lm ch path seen dups
      rw [merge_folder]
      simp only [if_neg ht2]
      refine ⟨hs, fun u => ?_⟩
      have h := ht u
      simp only [listUrls, itemUrls, List.mem_append] at h ⊢
      tauto
  | Item.bookmark t2 u2 ad2 ic2 :: xs =>
    obtain ⟨hs, ht⟩ := mf_url_state xs t ad lm ch path seen dups
    rw [merge_folder]
    refine ⟨hs, fun u => ?_⟩
    have h := ht u
    simp only [listUrls, itemUrls, List.mem_append, List.mem_singleton] at h ⊢
    tauto
termination_by (sizeOf ch, 1, sizeOf target)

end

mutual

/-- URL-only dedup: a source whose urls are pairwise distinct and all
unseen contributes no duplicates. -/
theorem rm_nodup_no_dups (source : List Item)
    (hnd : (listUrls source).Nodup) (target : List Item)
    (path : List String) (seen : List (List KeyComp)) (dups : Nat)
    (hfresh : ∀ u ∈ listUrls source, [KeyComp.url u] ∉ seen) :
    (recursive_merge urlConf target source path seen dups).2.2 = dups := by
  match source with
  | [] => rw [recursive_merge]
  | item :: rest =>
    rw [recursive_merge]
    have hsplit : listUrls (item :: rest) = itemUrls item ++ listUrls rest := rfl
    rw [hsplit] at hnd
    rw [List.nodup_append] at hnd
    obtain ⟨hnd1, hnd2, hdisj⟩ := hnd
    have hfresh1 : ∀ u ∈ itemUrls item, [KeyComp.url u] ∉ seen := by
      intro u hu
      exact hfresh u (by rw [hsplit]; exact List.mem_append_left _ hu)
    have hd1 := mi_nodup_no_dups item hnd1 target path seen dups hfresh1
    obtain ⟨hs1, _⟩ := mi_url_state target item path seen dups
    have hfresh2 : ∀ u ∈ listUrls rest,
        [KeyComp.url u] ∉ (merge_item urlConf target item path seen dups).2.1 := by
      intro u hu hmem
      rcases (hs1 _).mp hmem with h | ⟨u', hu', he⟩
      · exact hfresh u (by rw [hsplit]; exact List.mem_append_right _ hu) h
      · simp only [List.cons.injEq, KeyComp.url.injEq, and_true] at he
        exact hdisj (he ▸ hu') hu
    have hd2 := rm_nodup_no_dups rest hnd2
      (merge_item urlConf target item path seen dups).1 path
      (merge_item urlConf target item path seen dups).2.1
      (merge_item urlConf target item path seen dups).2.2 hfresh2
    rw [hd2, hd1]
termination_by (sizeOf source, 0, 0)

/-- Item form of `rm_nodup_no_dups`. -/
theorem mi_nodup_no_dups (item : Item) (hnd : (itemUrls item).Nodup)
    (target : List Item) (path : List String) (seen : List (List KeyComp))
    (dups : Nat)
    (hfresh : ∀ u ∈ itemUrls item, [KeyComp.url u] ∉ seen) :
    (merge_item urlConf target item path seen dups).2.2 = dups := by
  match item with
  | .folder t ad lm ch =>
    rw [merge_item]
    exact mf_nodup_no_dups ch (by simpa [itemUrls] using hnd) target t ad lm
      path seen dups (by simpa [itemUrls] using hfresh)
  | .bookmark t u ad ic =>
    have hk : [KeyComp.url u] ∉ seen := hfresh u (by simp [itemUrls])
    rw [merge_item, get_key_urlConf, if_pos urlConf_rd, if_neg hk]
termination_by (sizeOf item, 0, 0)

/-- Folder form of `rm_nodup_no_dups`. -/
theorem mf_nodup_no_dups (ch : List Item) (hnd : (listUrls ch).Nodup)
    (target : List Item) (t : String) (ad lm : Option String)
    (path : List String) (seen : List (List KeyComp)) (dups : Nat)
    (hfresh : ∀ u ∈ listUrls ch, [KeyComp.url u] ∉ seen) :
    (merge_folder urlConf target t ad lm ch path seen dups).2.2 = dups := by
  match target with
  | [] =>
    rw [merge_folder]
    exact rm_nodup_no_dups ch hnd [] (path ++ [t]) seen dups hfresh
  | Item.folder t2 ad2 lm2 ch2 :: xs =>
    by_cases ht2 : t2 = t
    · rw [merge_folder]
      simp only [ht2, if_pos rfl]
      exact rm_nodup_no_dups ch hnd ch2 (path ++ [t]) seen dups hfresh
    · rw [merge_folder]
      simp only [if_neg ht2]
      exact mf_nodup_no_dups ch hnd xs t ad lm path seen dups hfresh
  | Item.bookmark t2 u2 ad2 ic2 :: xs =>
    rw [merge_folder]
    exact mf_nodup_no_dups ch hnd xs t ad lm path seen dups hfresh
termination_by (sizeOf ch, 1, sizeOf target)

end

mutual

/-- URL-only dedup: when every source url key is already seen, every
source bookmark is counted as a duplicate. -/
theorem rm_all_seen (source target : List Item) (path : List String)
    (seen : List (List KeyComp)) (dups : Nat)
    (hseen : ∀ u ∈ listUrls source, [KeyComp.url u] ∈ seen) :
    (recursive_merge urlConf target source path seen dups).2.2 =
      dups + bmCounts source := by
  match source with
  | [] =>
    rw [recursive_merge]
    simp [bmCounts]
  | item :: rest =>
    rw [recursive_merge]
    have hsplit : listUrls (item :: rest) = itemUrls item ++ listUrls rest := rfl
    have hseen1 : ∀ u ∈ itemUrls item, [KeyComp.url u] ∈ seen := by
      intro u hu
      exact hseen u (by rw [hsplit]; exact List.mem_append_left _ hu)
    have hd1 := mi_all_seen item target path seen dups hseen1
    obtain ⟨hs1, _⟩ := mi_url_state target item path seen dups
    have hseen2 : ∀ u ∈ listUrls rest,
        [KeyComp.url u] ∈ (merge_item urlConf target item path seen dups).2.1 := by
      intro u hu
      exact (hs1 _).mpr (Or.inl
        (hseen u (by rw [hsplit]; exact List.mem_append_right _ hu)))
    have hd2 := rm_all_seen rest
      (merge_item urlConf target item path seen dups).1 path
      (merge_item urlConf target item path seen dups).2.1
      (merge_item urlConf target item path seen dups).2.2 hseen2
    rw [hd2, hd1]
    simp only [bmCounts]
    omega
termination_by (sizeOf source, 0, 0)

/-- Item form of `rm_all_seen`. -/
theorem mi_all_seen (item : Item) (target : List Item) (path : List String)
    (seen : List (List KeyComp)) (dups : Nat)
    (hseen : ∀ u ∈ itemUrls item, [KeyComp.url u] ∈ seen) :
    (merge_item urlConf target item path seen dups).2.2 =
      dups + bmCount item := by
  match item with
  | .folder t ad lm ch =>
    rw [merge_item]
    have h := mf_all_seen ch target t ad lm path seen dups
      (by simpa [itemUrls] using hseen)
    simpa [bmCount] using h
  | .bookmark t u ad ic =>
    have hk : [KeyComp.url u] ∈ seen := hseen u (by simp [itemUrls])
    rw [merge_item, get_key_urlConf, if_pos urlConf_rd, if_pos hk]
    simp [bmCount]
termination_by (sizeOf item, 0, 0)

/-- Folder form of `rm_all_seen`. -/
theorem mf_all_seen (ch target : List Item) (t : String)
    (ad lm : Option String) (path : List String)
    (seen : List (List KeyComp)) (dups : Nat)
    (hseen : ∀ u ∈ listUrls ch, [KeyComp.url u] ∈ seen) :
    (merge_folder urlConf target t ad lm ch path seen dups).2.2 =
      dups + bmCounts ch := by
  match target with
  | [] =>
    rw [merge_folder]
    exact rm_all_seen ch [] (path ++ [t]) seen dups hseen
  | Item.folder t2 ad2 lm2 ch2 :: xs =>
    by_cases ht2 : t2 = t
    · rw [merge_folder]
      simp only [ht2, if_pos rfl]
      exact rm_all_seen ch ch2 (path ++ [t]) seen dups hseen
    · rw [merge_folder]
      simp only [if_neg ht2]
      exact mf_all_seen ch xs t ad lm path seen dups hseen
  | Item.bookmark t2 u2 ad2 ic2 :: xs =>
    rw [merge_folder]
    exact mf_all_seen ch xs t ad lm path seen dups hseen
termination_by (sizeOf ch, 1, sizeOf target)

end

/-! ## The serializer

`generate_netscape_html` opens the destination with mode `'w'` (creating
or truncating it), writes the header, streams one `f.write` per line via
`write_items`, writes the footer, and returns `True`; any exception is
caught and its string returned.  File I/O is modelled by the written
chunk sequence together with a write budget: the first `budget` writes
succeed and the next raises.  The destination state is
`Option (List String)`: `none` means the file does not exist, `some l`
that it holds the chunks `l`. -/

/-- The fixed header block (verbatim from the source, including the
top-level `<DL><p>` opener line). -/
def netscapeHeader : String :=
  "<!DOCTYPE NETSCAPE-Bookmark-file-1>\n<!-- This is an automatically generated file.\n     It will be read and overwritten.\n     DO NOT EDIT! -->\n<META HTTP-EQUIV=\"Content-Type\" CONTENT=\"text/html; charset=UTF-8\">\n<TITLE>Bookmarks</TITLE>\n<H1>Bookmarks</H1>\n<DL><p>\n"

/-- The fixed footer (no trailing newline). -/
def netscapeFooter : String := "</DL><p>"

/-- `"    " * indent_level`: `4 * indent_level` blanks. -/
def indent (lvl : Nat) : String := String.mk (List.replicate (4 * lvl) ' ')

/-- One optional attribute: Python's
`if v: attr_str += f' NAME="{v}"'` — emitted only when the value is a
present, nonempty string (both `None` and `''` are falsy). -/
def attrStrOpt (nm : String) (v : Option String) : String :=
  match v with
  | some s => if s = "" then "" else " " ++ nm ++ "=\"" ++ s ++ "\""
  | none => ""

/-- Python `f"{url}"` where the value may be `None`: `str(None)` prints
`"None"`. -/
def pyStr : Option String → String
  | some s => s
  | none => "None"

/-- The sequence of chunks `write_items` passes to `f.write`, in order. -/
def write_items : List Item → Nat → List String
  | [], _ => []
  | Item.folder t ad lm ch :: rest, lvl =>
    (indent lvl ++ "<DT><H3" ++ attrStrOpt "ADD_DATE" ad ++
        attrStrOpt "LAST_MODIFIED" lm ++ ">" ++ escape_html t ++ "</H3>\n")
      :: (indent lvl ++ "<DL><p>\n")
      :: (write_items ch (lvl + 1) ++
          ((indent lvl ++ "</DL><p>\n") :: write_items rest lvl))
  | Item.bookmark t u ad ic :: rest, lvl =>
    (indent lvl ++ "<DT><A HREF=\"" ++ pyStr u ++ "\"" ++
        attrStrOpt "ADD_DATE" ad ++ attrStrOpt "ICON" ic ++ ">" ++
        escape_html t ++ "</A>\n")
      :: write_items rest lvl

/-- All chunks `generate_netscape_html` writes for a tree. -/
def allChunks (bookmarks : List Item) : List String :=
  netscapeHeader :: (write_items bookmarks 1 ++ [netscapeFooter])

/-- `generate_netscape_html` under the write-budget I/O model: a failed
open leaves the previous file state and returns the reason; a successful
open truncates the file and streams the chunks, leaving the successfully
written ones behind if a write raises mid-stream. -/
def generate_netscape_html (bookmarks : List Item)
    (prev : Option (List String)) (openOk : Bool) (budget : Nat)
    (errMsg : String) : Option (List String) × (Bool ⊕ String) :=
  if openOk then
    let chunks := allChunks bookmarks
    if chunks.length ≤ budget then (some chunks, Sum.inl true)
    else (some (chunks.take budget), Sum.inr errMsg)
  else (prev, Sum.inr errMsg)

/-! ## The driver

`BookmarkMergerApp.merge_bookmarks` with the GUI treated as the external
caller: it supplies the parsed file contents, the four checkbox values,
whether a save path was chosen, and the I/O oracle of the save step; the
outcome, final destination state, and number of input files processed
before returning are reported back. -/

/-- The caller-visible outcome of the merge operation. -/
inductive MergeOutcome where
  | noFiles
  | criteriaMissing
  | cancelled
  | saveFailed (msg : String)
  | success (dupCount : Nat)
deriving DecidableEq, Repr

/-- `merge_bookmarks`: guard clauses in source order (empty file list,
then dedup-without-criteria, then cancelled save dialog), then the
per-file merge loop, then serialization. -/
def merge_bookmarks (files : List (List Item))
    (remove_duplicates crit_folder crit_title crit_url : Bool)
    (savePathGiven : Bool) (prev : Option (List String)) (openOk : Bool)
    (budget : Nat) (errMsg : String) :
    MergeOutcome × Option (List String) × Nat :=
  if files = [] then (MergeOutcome.noFiles, prev, 0)
  else if remove_duplicates && !(crit_folder || crit_title || crit_url) then
    (MergeOutcome.criteriaMissing, prev, 0)
  else if !savePathGiven then (MergeOutcome.cancelled, prev, 0)
  else
    let conf : MergeConfig :=
      ⟨remove_duplicates, crit_folder, crit_title, crit_url⟩
    let merged := merge_all conf files
    let gen := generate_netscape_html merged.1 prev openOk budget errMsg
    match gen.2 with
    | Sum.inl _ => (MergeOutcome.success merged.2.2, gen.1, files.length)
    | Sum.inr m => (MergeOutcome.saveFailed m, gen.1, files.length)

/-! ## The markup reader, modelled from the spec

The repository delegates reading HTML to BeautifulSoup, an external
collaborator: per the spec, "any tolerant HTML parser library satisfies
this; not part of the core's novel logic", producing a generic
tag/attribute/text tree in which tag and attribute names are lowercased
and entities in text runs are decoded.  The model below reads exactly the
canonical documents the Netscape Serializer emits — the fixed preamble
block, then `<DT><H3 …>title</H3>` / `<DL><p>` / `</DL><p>` /
`<DT><A …>title</A>` structures separated by indentation whitespace —
into that generic tree: attribute names are lowercased, text is
entity-decoded, attribute values are kept verbatim. -/

/-- Whitespace between structural tokens: blanks and newlines. -/
def isWs (c : Char) : Bool := c = ' ' || c = '\n'

/-- `p` begins `cs`. -/
def startsWith : List Char → List Char → Bool
  | [], _ => true
  | p :: ps, c :: cs => p = c && startsWith ps cs
  | _ :: _, [] => false

/-- Modelled from the spec: entity decoding of text runs by the Markup
Tree Reader — the three entities the dialect uses are decoded, each at
most once (`&amp;quot;` becomes the literal `&quot;`). -/
def unescape : List Char → List Char
  | [] => []
  | c :: rest =>
    if c = '&' then
      if rest.take 4 = 'a' :: 'm' :: 'p' :: ';' :: [] then
        '&' :: unescape (rest.drop 4)
      else if rest.take 3 = 'l' :: 't' :: ';' :: [] then
        '<' :: unescape (rest.drop 3)
      else if rest.take 3 = 'g' :: 't' :: ';' :: [] then
        '>' :: unescape (rest.drop 3)
      else c :: unescape rest
    else c :: unescape rest
termination_by cs => cs.length
decreasing_by
  all_goals (simp only [List.length_drop, List.length_cons]; omega)

/-- Modelled from the spec: the reader's attribute scanner.  Inside a tag,
it skips blanks, stops at `>` (returning the remainder of the line), and
otherwise reads `NAME="value"` pairs, lowercasing the name and keeping
the value verbatim. -/
theorem length_dropWhile_le (p : Char → Bool) (l : List Char) :
    (l.dropWhile p).length ≤ l.length :=
  (List.dropWhile_suffix p).length_le

def parseAttrs (cs : List Char) : List (String × String) × List Char :=
  let cs' := cs.dropWhile (· = ' ')
  if cs'.head? = some '>' then ([], cs'.drop 1)
  else
    let nm := cs'.takeWhile (· ≠ '=')
    let afterName := (cs'.dropWhile (· ≠ '=')).drop 1
    if h2 : afterName.head? = some '"' then
      let rest1 := afterName.drop 1
      let v := rest1.takeWhile (· ≠ '"')
      let rest2 := (rest1.dropWhile (· ≠ '"')).drop 1
      let r := parseAttrs rest2
      ((String.mk (nm.map Char.toLower), String.mk v) :: r.1, r.2)
    else ([], afterName)
termination_by cs.length
decreasing_by
  have h2' : (List.drop 1 (List.dropWhile (fun x => decide (x ≠ '='))
      (List.dropWhile (fun x => decide (x = ' ')) cs))).head? = some '"' := h2
  have hlen : 1 ≤ (List.drop 1 (List.dropWhile (fun x => decide (x ≠ '='))
      (List.dropWhile (fun x => decide (x = ' ')) cs))).length := by
    cases hA : List.drop 1 (List.dropWhile (fun x => decide (x ≠ '='))
        (List.dropWhile (fun x => decide (x = ' ')) cs)) with
    | nil => rw [hA] at h2'; simp at h2'
    | cons c t => simp [hA]
  have hcs := length_dropWhile_le (fun x => decide (x = ' ')) cs
  have hdw := length_dropWhile_le (fun x => decide (x ≠ '='))
    (List.dropWhile (fun x => decide (x = ' ')) cs)
  have hr2 := length_dropWhile_le (fun x => decide (x ≠ '"'))
    (List.drop 1 (List.drop 1 (List.dropWhile (fun x => decide (x ≠ '='))
      (List.dropWhile (fun x => decide (x = ' ')) cs))))
  simp only [List.length_drop] at hlen hcs hdw hr2 ⊢
  omega
/-- Modelled from the spec: the reader's walk over the serialized item
list.  It skips whitespace; a `</DL><p>` closes the current list; a
`<DT><H3 …>` line opens a folder term whose `<DL><p>` block is read
recursively; a `<DT><A …>` line is a bookmark term; anything else ends
the list.  The produced nodes are the canonical
`dt[h3[text], dl[…]]` / `dt[a[text]]` shapes. -/
def parseNodes : Nat → List Char → List MNode × List Char
  | 0, cs => ([], cs)
  | fuel + 1, cs =>
    let cs' := cs.dropWhile isWs
    if startsWith "</DL><p>".data cs' then ([], cs'.drop 8)
    else if startsWith "<DT><H3".data cs' then
      let ar := parseAttrs (cs'.drop 7)
      let title := ar.2.takeWhile (· ≠ '<')
      let afterTitle := (ar.2.dropWhile (· ≠ '<')).drop 5
      let h3node := MNode.elem "h3" ar.1 [MNode.text (String.mk (unescape title))]
      let rest1 := afterTitle.dropWhile isWs
      if startsWith "<DL><p>".data rest1 then
        let kids := parseNodes fuel (rest1.drop 7)
        let sibs := parseNodes fuel kids.2
        (MNode.elem "dt" [] [h3node, MNode.elem "dl" [] kids.1] :: sibs.1,
          sibs.2)
      else
        let sibs := parseNodes fuel afterTitle
        (MNode.elem "dt" [] [h3node] :: sibs.1, sibs.2)
    else if startsWith "<DT><A ".data cs' then
      let ar := parseAttrs (cs'.drop 6)
      let title := ar.2.takeWhile (· ≠ '<')
      let afterTitle := (ar.2.dropWhile (· ≠ '<')).drop 4
      let sibs := parseNodes fuel afterTitle
      (MNode.elem "dt" []
          [MNode.elem "a" ar.1 [MNode.text (String.mk (unescape title))]]
        :: sibs.1, sibs.2)
    else ([], cs')

/-- The characters of a written chunk sequence, in order (the file's
content). -/
def chunksChars : List String → List Char
  | [] => []
  | c :: cs => c.data ++ chunksChars cs

/-- The full text `generate_netscape_html` writes on success. -/
def serializeString (bookmarks : List Item) : String :=
  String.mk (chunksChars (allChunks bookmarks))

/-- `parse_bookmarks` on a serialized document, through the spec-modelled
reader: recognize the canonical preamble, read the top-level `<DL><p>`
list into a `dl` element (the document's first), and extract it with
`process_dl`. -/
def read_bookmarks (s : String) : List Item :=
  let cs := s.data
  if startsWith netscapeHeader.data cs then
    let body := cs.drop netscapeHeader.data.length
    let r := parseNodes (body.length + 1) body
    process_dl (MNode.elem "dl" [] r.1)
  else []

/-! ## Round-trip lemmas -/

theorem takeWhile_append_all {p : Char → Bool} :
    ∀ {xs : List Char}, (∀ c ∈ xs, p c = true) → ∀ ys,
      (xs ++ ys).takeWhile p = xs ++ ys.takeWhile p := by
  intro xs
  induction xs with
  | nil => intro _ ys; rfl
  | cons x xs ih =>
    intro h ys
    simp [List.takeWhile_cons, h x (by simp),
      ih (fun c hc => h c (by simp [hc])) ys]

theorem dropWhile_append_all {p : Char → Bool} :
    ∀ {xs : List Char}, (∀ c ∈ xs, p c = true) → ∀ ys,
      (xs ++ ys).dropWhile p = ys.dropWhile p := by
  intro xs
  induction xs with
  | nil => intro _ ys; rfl
  | cons x xs ih =>
    intro h ys
    simp [List.dropWhile_cons, h x (by simp),
      ih (fun c hc => h c (by simp [hc])) ys]

theorem startsWith_append_self :
    ∀ (p x : List Char), startsWith p (p ++ x) = true := by
  intro p
  induction p with
  | nil => intro x; rfl
  | cons c cs ih => intro x; simp [startsWith, ih x]

/-- Characters appearing in escaped text: never `<` or `>`, and either a
character of the original or one of the entity characters. -/
theorem escapeChars_chars {c : Char} {s : List Char}
    (h : c ∈ escapeChars s) :
    c ≠ '<' ∧ c ≠ '>' ∧
      (c ∈ s ∨ c ∈ '&' :: 'a' :: 'm' :: 'p' :: 'l' :: 't' :: 'g' :: ';' :: []) := by
  rw [escapeChars_eq_flatMap] at h
  obtain ⟨x, hx, hc⟩ := List.mem_flatMap.mp h
  by_cases hamp : x = '&'
  · subst hamp; simp [escCharSpec] at hc
    rcases hc with rfl | rfl | rfl | rfl | rfl <;> simp
  by_cases hlt : x = '<'
  · subst hlt; simp [escCharSpec] at hc
    rcases hc with rfl | rfl | rfl | rfl <;> simp
  by_cases hgt : x = '>'
  · subst hgt; simp [escCharSpec] at hc
    rcases hc with rfl | rfl | rfl | rfl <;> simp
  · simp [escCharSpec, hamp, hlt, hgt] at hc
    subst hc
    exact ⟨hlt, hgt, Or.inl hx⟩

/-- Entity decoding undoes escaping. -/
theorem unescape_escapeChars : ∀ s : List Char, unescape (escapeChars s) = s := by
  intro s
  induction s with
  | nil => simp [escapeChars_eq_flatMap, unescape]
  | cons c rest ih =>
    have hstep : escapeChars (c :: rest) = escCharSpec c ++ escapeChars rest := by
      rw [escapeChars_eq_flatMap, List.flatMap_cons, ← escapeChars_eq_flatMap]
    rw [hstep]
    by_cases hamp : c = '&'
    · subst hamp; simp [escCharSpec, unescape, ih]
    by_cases hlt : c = '<'
    · subst hlt; simp [escCharSpec, unescape, ih]
    by_cases hgt : c = '>'
    · subst hgt; simp [escCharSpec, unescape, ih]
    · simp only [escCharSpec, if_neg hamp, if_neg hlt, if_neg hgt,
        List.singleton_append]
      rw [unescape, if_neg hamp, ih]

/-! ## Attribute parsing lemmas -/

/-- The characters a sequence of emitted attributes occupies: a blank,
the name, `="`, the value, `"`. -/
def attrsChars : List (String × String) → List Char
  | [] => []
  | (nm, v) :: rest =>
    ' ' :: (nm.data ++ ('=' :: '"' :: (v.data ++ ('"' :: attrsChars rest))))

/-- The attribute pairs an optional attribute contributes. -/
def optPair (nm : String) : Option String → List (String × String)
  | some s => if s = "" then [] else [(nm, s)]
  | none => []

theorem attrStrOpt_data (nm : String) (v : Option String) :
    (attrStrOpt nm v).data = attrsChars (optPair nm v) := by
  match v with
  | none => rfl
  | some s =>
    by_cases hs : s = ""
    · simp [attrStrOpt, optPair, hs, attrsChars]
    · simp [attrStrOpt, optPair, if_neg hs, attrsChars, String.data_append]

/-- A name fit for the attribute scanner: nonempty, no blank, `=`, or
`>`. -/
def attrNameOk (nm : String) : Bool :=
  !(nm.data.isEmpty) && nm.data.all (fun c => c ≠ ' ' && c ≠ '=' && c ≠ '>')

theorem parseAttrs_close (rest : List Char) :
    parseAttrs ('>' :: rest) = ([], rest) := by
  rw [parseAttrs]
  rfl

theorem parseAttrs_step (c0 : Char) (nm' : List Char)
    (hnmc : ∀ c ∈ c0 :: nm', c ≠ ' ' ∧ c ≠ '=' ∧ c ≠ '>') (v : String)
    (hv : ∀ c ∈ v.data, c ≠ '"') (A : List Char) :
    parseAttrs (' ' :: c0 :: (nm' ++ ('=' :: '"' :: (v.data ++ ('"' :: A))))) =
      ((String.mk ((c0 :: nm').map Char.toLower), v) :: (parseAttrs A).1,
        (parseAttrs A).2) := by
  have hc0 := hnmc c0 (by simp)
  have hnm' : ∀ c ∈ nm', c ≠ ' ' ∧ c ≠ '=' ∧ c ≠ '>' :=
    fun c hc => hnmc c (by simp [hc])
  have e_cs' : (' ' :: c0 :: (nm' ++ ('=' :: '"' :: (v.data ++ ('"' :: A))))).dropWhile
      (· = ' ') = c0 :: (nm' ++ ('=' :: '"' :: (v.data ++ ('"' :: A)))) := by
    simp [List.dropWhile_cons, hc0.1]
  have e_nm : (c0 :: (nm' ++ ('=' :: '"' :: (v.data ++ ('"' :: A))))).takeWhile
      (· ≠ '=') = c0 :: nm' := by
    simp only [List.takeWhile_cons]
    rw [takeWhile_append_all (fun c hc => by simp [(hnm' c hc).2.1])]
    simp [hc0.2.1, List.takeWhile_cons]
  have e_after : ((c0 :: (nm' ++ ('=' :: '"' :: (v.data ++ ('"' :: A))))).dropWhile
      (· ≠ '=')).drop 1 = '"' :: (v.data ++ ('"' :: A)) := by
    simp only [List.dropWhile_cons]
    rw [dropWhile_append_all (fun c hc => by simp [(hnm' c hc).2.1])]
    simp [hc0.2.1, List.dropWhile_cons]
  have e_v : (v.data ++ ('"' :: A)).takeWhile (· ≠ '"') = v.data := by
    rw [takeWhile_append_all (fun c hc => by simp [hv c hc])]
    simp [List.takeWhile_cons]
  have e_rest2 : ((v.data ++ ('"' :: A)).dropWhile (· ≠ '"')).drop 1 = A := by
    rw [dropWhile_append_all (fun c hc => by simp [hv c hc])]
    simp [List.dropWhile_cons]
  rw [parseAttrs, e_cs']
  rw [if_neg (by simp [hc0.2.2])]
  simp only [e_nm, e_after, List.head?_cons, List.drop_succ_cons,
    List.drop_zero]
  rw [dif_pos trivial, e_v, e_rest2]

theorem parseAttrs_attrsChars :
    ∀ (ps : List (String × String)) (rest : List Char),
      (∀ p ∈ ps, attrNameOk p.1 = true ∧ ∀ c ∈ p.2.data, c ≠ '"') →
      parseAttrs (attrsChars ps ++ '>' :: rest) =
        (ps.map (fun p => (String.mk (p.1.data.map Char.toLower), p.2)),
          rest) := by
  intro ps
  induction ps with
  | nil =>
    intro rest _
    simpa [attrsChars] using parseAttrs_close rest
  | cons p ps ih =>
    intro rest hok
    obtain ⟨nm, v⟩ := p
    obtain ⟨hnm, hv⟩ := hok (nm, v) (by simp)
    simp only [attrNameOk, Bool.and_eq_true, List.all_eq_true] at hnm
    have hnm0 : nm.data ≠ [] := by
      intro hh
      rw [hh] at hnm
      simp [List.isEmpty] at hnm
    obtain ⟨c0, nm', hc0eq⟩ : ∃ c0 nm', nm.data = c0 :: nm' := by
      cases hd : nm.data with
      | nil => exact absurd hd hnm0
      | cons a b => exact ⟨a, b, rfl⟩
    have hnmc : ∀ c ∈ c0 :: nm', c ≠ ' ' ∧ c ≠ '=' ∧ c ≠ '>' := by
      intro c hc
      have hcc := hnm.2 c (by rw [hc0eq]; exact hc)
      simp only [Bool.and_eq_true, decide_eq_true_eq] at hcc
      exact ⟨hcc.1.1, hcc.1.2, hcc.2⟩
    have hin : attrsChars ((nm, v) :: ps) ++ '>' :: rest =
        ' ' :: c0 :: (nm' ++ ('=' :: '"' :: (v.data ++
          ('"' :: (attrsChars ps ++ '>' :: rest))))) := by
      simp [attrsChars, hc0eq, List.append_assoc]
    rw [hin, parseAttrs_step c0 nm' hnmc v hv (attrsChars ps ++ '>' :: rest),
      ih rest (fun q hq => hok q (by simp [hq]))]
    simp [hc0eq]

/-! ## Well-formedness for the round trip -/

/-- No double-quote character (which would end an attribute value early). -/
def noQuote (s : String) : Bool := s.data.all (fun c => c ≠ '"')

/-- An optional attribute the serializer can round-trip: absent, or a
nonempty string without a double quote (an empty one is dropped on write,
and a quote would truncate the value). -/
def wfOpt : Option String → Bool
  | none => true
  | some s => !(s == "") && noQuote s

mutual

/-- Trees the serializer represents faithfully: every bookmark has a
present, quote-free url, and the optional attributes are absent or
nonempty and quote-free.  Titles are unrestricted: escaping handles
them. -/
def wfItem : Item → Bool
  | .folder _ ad lm ch => wfOpt ad && wfOpt lm && wfItems ch
  | .bookmark _ u ad ic =>
    (match u with | some s => noQuote s | none => false) &&
      wfOpt ad && wfOpt ic

/-- `wfItem` over a list. -/
def wfItems : List Item → Bool
  | [] => true
  | x :: xs => wfItem x && wfItems xs

end

/-- The markup nodes the reader model recovers from a serialized tree:
the canonical `dt[h3[text], dl[…]]` and `dt[a[text]]` shapes with the
lowercased attribute pairs. -/
def mnodesOf : List Item → List MNode
  | [] => []
  | Item.folder t ad lm ch :: rest =>
    MNode.elem "dt" []
        [MNode.elem "h3"
            (optPair "add_date" ad ++ optPair "last_modified" lm)
            [MNode.text t],
          MNode.elem "dl" [] (mnodesOf ch)]
      :: mnodesOf rest
  | Item.bookmark t u ad ic :: rest =>
    MNode.elem "dt" []
        [MNode.elem "a"
            (("href", pyStr u) :: (optPair "add_date" ad ++ optPair "icon" ic))
            [MNode.text t]]
      :: mnodesOf rest

/-- A bound on the reader fuel a serialized tree needs: nesting depth plus
sibling-chain length. -/
def parseFuel : List Item → Nat
  | [] => 0
  | Item.folder _ _ _ ch :: rest => 1 + max (parseFuel ch) (parseFuel rest)
  | Item.bookmark _ _ _ _ :: rest => 1 + parseFuel rest

theorem chunksChars_append (xs ys : List String) :
    chunksChars (xs ++ ys) = chunksChars xs ++ chunksChars ys := by
  induction xs with
  | nil => rfl
  | cons x xs ih => simp [chunksChars, ih]

theorem attrsChars_append (xs ys : List (String × String)) :
    attrsChars (xs ++ ys) = attrsChars xs ++ attrsChars ys := by
  induction xs with
  | nil => rfl
  | cons x xs ih =>
    obtain ⟨nm, v⟩ := x
    simp [attrsChars, ih]

theorem dropWhile_ws {pre : List Char} (h : ∀ c ∈ pre, isWs c = true)
    {c : Char} (hc : isWs c = false) (rest : List Char) :
    (pre ++ c :: rest).dropWhile isWs = c :: rest := by
  rw [dropWhile_append_all h]
  simp [List.dropWhile_cons, hc]

theorem indentChars_ws : ∀ c ∈ (indent lvl).data, isWs c = true := by
  intro c hc
  have : (indent lvl).data = List.replicate (4 * lvl) ' ' := rfl
  rw [this] at hc
  rw [List.eq_of_mem_replicate hc]
  rfl

theorem escapeChars_not_lt {c : Char} {s : List Char} (h : c ∈ escapeChars s) :
    (c ≠ '<') ∧ (c ≠ '>') :=
  ⟨(escapeChars_chars h).1, (escapeChars_chars h).2.1⟩

/-- The `optPair` lists of the serializer have scanner-fit names and
quote-free values. -/
theorem optPair_ok (nm : String) (hnm : attrNameOk nm = true)
    (v : Option String) (hv : wfOpt v = true) :
    ∀ p ∈ optPair nm v, attrNameOk p.1 = true ∧ ∀ c ∈ p.2.data, c ≠ '"' := by
  intro p hp
  match v with
  | none => simp [optPair] at hp
  | some s =>
    simp only [wfOpt, Bool.and_eq_true, Bool.not_eq_true', beq_eq_false_iff_ne,
      ne_eq] at hv
    simp only [optPair, if_neg hv.1] at hp
    simp only [List.mem_singleton] at hp
    subst hp
    refine ⟨hnm, fun c hc => ?_⟩
    have := hv.2
    simp only [noQuote, List.all_eq_true, decide_eq_true_eq] at this
    exact this c hc

/-- Lowercasing the serializer's attribute names. -/
theorem map_lower_optPair (v : Option String) :
    (optPair "ADD_DATE" v).map
        (fun p => (String.mk (p.1.data.map Char.toLower), p.2)) =
      optPair "add_date" v ∧
    (optPair "LAST_MODIFIED" v).map
        (fun p => (String.mk (p.1.data.map Char.toLower), p.2)) =
      optPair "last_modified" v ∧
    (optPair "ICON" v).map
        (fun p => (String.mk (p.1.data.map Char.toLower), p.2)) =
      optPair "icon" v := by
  match v with
  | none => exact ⟨rfl, rfl, rfl⟩
  | some s =>
    by_cases hs : s = "" <;> simp [optPair, hs]

@[simp] theorem string_mk_data (l : List Char) : (String.mk l).data = l := rfl

theorem parseNodes_write_items (items : List Item) (lvl fuel : Nat)
    (pre cs tail : List Char) (hwf : wfItems items = true)
    (hfuel : parseFuel items < fuel) (hpre : ∀ c ∈ pre, isWs c = true)
    (hclose : cs.dropWhile isWs = "</DL><p>".data ++ tail) :
    parseNodes fuel (pre ++ (chunksChars (write_items items lvl) ++ cs)) =
      (mnodesOf items, tail) := by
  match items, fuel with
  | [], fuel + 1 =>
    rw [parseNodes]
    have h1 : (pre ++ (chunksChars (write_items [] lvl) ++ cs)).dropWhile isWs
        = "</DL><p>".data ++ tail := by
      simp only [write_items, chunksChars, List.nil_append]
      rw [dropWhile_append_all hpre]
      exact hclose
    simp only [h1]
    rw [if_pos (by rw [startsWith_append_self])]
    have h2 : ("</DL><p>".data ++ tail).drop 8 = tail := rfl
    rw [h2]
    simp [mnodesOf]
  | Item.folder t ad lm ch :: rest, fuel + 1 =>
    simp only [wfItems, wfItem, Bool.and_eq_true] at hwf
    obtain ⟨⟨⟨had, hlm⟩, hch⟩, hrest⟩ := hwf
    have hfch : parseFuel ch < fuel := by
      simp only [parseFuel] at hfuel
      omega
    have hfrest : parseFuel rest < fuel := by
      simp only [parseFuel] at hfuel
      omega
    have hinput : pre ++ (chunksChars
        (write_items (Item.folder t ad lm ch :: rest) lvl) ++ cs) =
        (pre ++ (indent lvl).data) ++ ('<':: 'D':: 'T':: '>':: '<':: 'H':: '3'::
          (attrsChars (optPair "ADD_DATE" ad ++ optPair "LAST_MODIFIED" lm) ++
            ('>' :: (escapeChars t.data ++ ('<':: '/':: 'H':: '3':: '>':: '\n'::
              ((indent lvl).data ++ ('<':: 'D':: 'L':: '>':: '<':: 'p':: '>':: '\n'::
                (chunksChars (write_items ch (lvl + 1)) ++
                  ((indent lvl).data ++
                    ('<':: '/':: 'D':: 'L':: '>':: '<':: 'p':: '>':: '\n'::
                      (chunksChars (write_items rest lvl) ++ cs))))))))))) := by
      simp [write_items, chunksChars, chunksChars_append, String.data_append,
        attrStrOpt_data, attrsChars_append, escape_html, List.append_assoc]
    rw [hinput, parseNodes]
    have hpre2 : ∀ c ∈ pre ++ (indent lvl).data, isWs c = true := by
      intro c hc
      rcases List.mem_append.mp hc with h | h
      · exact hpre c h
      · exact indentChars_ws c h
    rw [dropWhile_ws hpre2 (by rfl)]
    rw [if_neg (by intro hh; exact absurd hh (by simp [startsWith]))]
    rw [if_pos (by rfl)]
    simp only [List.drop_succ_cons, List.drop_zero]
    have hok : ∀ p ∈ optPair "ADD_DATE" ad ++ optPair "LAST_MODIFIED" lm,
        attrNameOk p.1 = true ∧ ∀ c ∈ p.2.data, c ≠ '"' := by
      intro p hp
      rcases List.mem_append.mp hp with h | h
      · exact optPair_ok "ADD_DATE" rfl ad had p h
      · exact optPair_ok "LAST_MODIFIED" rfl lm hlm p h
    rw [parseAttrs_attrsChars _ _ hok]
    have htitle : (escapeChars t.data ++ ('<':: '/':: 'H':: '3':: '>':: '\n'::
        ((indent lvl).data ++ ('<':: 'D':: 'L':: '>':: '<':: 'p':: '>':: '\n'::
          (chunksChars (write_items ch (lvl + 1)) ++
            ((indent lvl).data ++ ('<':: '/':: 'D':: 'L':: '>':: '<':: 'p':: '>':: '\n'::
              (chunksChars (write_items rest lvl) ++ cs)))))))).takeWhile
          (· ≠ '<') = escapeChars t.data := by
      rw [takeWhile_append_all (fun c hc => by
        simp [(escapeChars_not_lt hc).1])]
      simp [List.takeWhile_cons]
    have hafter : ((escapeChars t.data ++ ('<':: '/':: 'H':: '3':: '>':: '\n'::
        ((indent lvl).data ++ ('<':: 'D':: 'L':: '>':: '<':: 'p':: '>':: '\n'::
          (chunksChars (write_items ch (lvl + 1)) ++
            ((indent lvl).data ++ ('<':: '/':: 'D':: 'L':: '>':: '<':: 'p':: '>':: '\n'::
              (chunksChars (write_items rest lvl) ++ cs)))))))).dropWhile
          (· ≠ '<')).drop 5 =
        '\n'::((indent lvl).data ++ ('<':: 'D':: 'L':: '>':: '<':: 'p':: '>':: '\n'::
          (chunksChars (write_items ch (lvl + 1)) ++
            ((indent lvl).data ++ ('<':: '/':: 'D':: 'L':: '>':: '<':: 'p':: '>':: '\n'::
              (chunksChars (write_items rest lvl) ++ cs)))))) := by
      rw [dropWhile_append_all (fun c hc => by
        simp [(escapeChars_not_lt hc).1])]
      rfl
    rw [htitle, hafter]
    have hrest1 : ('\n'::((indent lvl).data ++
        ('<':: 'D':: 'L':: '>':: '<':: 'p':: '>':: '\n'::
          (chunksChars (write_items ch (lvl + 1)) ++
            ((indent lvl).data ++ ('<':: '/':: 'D':: 'L':: '>':: '<':: 'p':: '>':: '\n'::
              (chunksChars (write_items rest lvl) ++ cs))))))).dropWhile isWs =
        '<':: 'D':: 'L':: '>':: '<':: 'p':: '>':: '\n'::
          (chunksChars (write_items ch (lvl + 1)) ++
            ((indent lvl).data ++ ('<':: '/':: 'D':: 'L':: '>':: '<':: 'p':: '>':: '\n'::
              (chunksChars (write_items rest lvl) ++ cs)))) := by
      rw [show ('\n'::((indent lvl).data ++
          ('<':: 'D':: 'L':: '>':: '<':: 'p':: '>':: '\n'::
            (chunksChars (write_items ch (lvl + 1)) ++
              ((indent lvl).data ++
                ('<':: '/':: 'D':: 'L':: '>':: '<':: 'p':: '>':: '\n'::
                  (chunksChars (write_items rest lvl) ++ cs))))))) =
          ('\n'::(indent lvl).data) ++
            ('<':: 'D':: 'L':: '>':: '<':: 'p':: '>':: '\n'::
              (chunksChars (write_items ch (lvl + 1)) ++
                ((indent lvl).data ++
                  ('<':: '/':: 'D':: 'L':: '>':: '<':: 'p':: '>':: '\n'::
                    (chunksChars (write_items rest lvl) ++ cs))))) from by simp]
      refine dropWhile_ws ?_ (by rfl) _
      intro c hc
      rcases List.mem_cons.mp hc with h | h
      · rw [h]; rfl
      · exact indentChars_ws c h
    rw [hrest1]
    rw [if_pos (by rfl)]
    simp only [List.drop_succ_cons, List.drop_zero]
    have hkids := parseNodes_write_items ch (lvl + 1) fuel ['\n']
      ((indent lvl).data ++ ('<':: '/':: 'D':: 'L':: '>':: '<':: 'p':: '>':: '\n'::
        (chunksChars (write_items rest lvl) ++ cs)))
      ('\n'::(chunksChars (write_items rest lvl) ++ cs)) hch hfch
      (by intro c hc; rcases List.mem_singleton.mp hc with rfl; rfl)
      (by
        rw [dropWhile_ws indentChars_ws (by rfl)]
        rfl)
    rw [show ('\n'::(chunksChars (write_items ch (lvl + 1)) ++
        ((indent lvl).data ++ ('<':: '/':: 'D':: 'L':: '>':: '<':: 'p':: '>':: '\n'::
          (chunksChars (write_items rest lvl) ++ cs))))) =
        ['\n'] ++ (chunksChars (write_items ch (lvl + 1)) ++
          ((indent lvl).data ++ ('<':: '/':: 'D':: 'L':: '>':: '<':: 'p':: '>':: '\n'::
            (chunksChars (write_items rest lvl) ++ cs)))) from by simp]
    rw [hkids]
    have hsibs := parseNodes_write_items rest lvl fuel ['\n'] cs tail hrest
      hfrest (by intro c hc; rcases List.mem_singleton.mp hc with rfl; rfl)
      hclose
    rw [show ('\n'::(chunksChars (write_items rest lvl) ++ cs)) =
        ['\n'] ++ (chunksChars (write_items rest lvl) ++ cs) from by simp]
    rw [hsibs]
    simp only [mnodesOf, List.map_append, (map_lower_optPair ad).1,
      (map_lower_optPair lm).2.1, unescape_escapeChars, string_mk_data]
  | Item.bookmark t u ad ic :: rest, fuel + 1 =>
    simp only [wfItems, wfItem, Bool.and_eq_true] at hwf
    obtain ⟨⟨⟨hu, had⟩, hic⟩, hrest⟩ := hwf
    have hfrest : parseFuel rest < fuel := by
      simp only [parseFuel] at hfuel
      omega
    obtain ⟨us, rfl⟩ : ∃ us, u = some us := by
      match u with
      | some us => exact ⟨us, rfl⟩
      | none => simp at hu
    have husq : ∀ c ∈ (pyStr (some us)).data, c ≠ '"' := by
      intro c hc
      simp only [noQuote, List.all_eq_true, decide_eq_true_eq] at hu
      exact hu c hc
    have hinput : pre ++ (chunksChars
        (write_items (Item.bookmark t (some us) ad ic :: rest) lvl) ++ cs) =
        (pre ++ (indent lvl).data) ++ ('<':: 'D':: 'T':: '>':: '<':: 'A'::
          (attrsChars (("HREF", pyStr (some us)) ::
              (optPair "ADD_DATE" ad ++ optPair "ICON" ic)) ++
            ('>' :: (escapeChars t.data ++ ('<':: '/':: 'A':: '>':: '\n'::
              (chunksChars (write_items rest lvl) ++ cs)))))) := by
      simp [write_items, chunksChars, chunksChars_append, String.data_append,
        attrStrOpt_data, attrsChars_append, escape_html, attrsChars, pyStr,
        List.append_assoc]
    rw [hinput, parseNodes]
    have hpre2 : ∀ c ∈ pre ++ (indent lvl).data, isWs c = true := by
      intro c hc
      rcases List.mem_append.mp hc with h | h
      · exact hpre c h
      · exact indentChars_ws c h
    rw [dropWhile_ws hpre2 (by rfl)]
    rw [if_neg (by intro hh; exact absurd hh (by simp [startsWith]))]
    rw [if_neg (by intro hh; exact absurd hh (by simp [startsWith]))]
    rw [if_pos (by rfl)]
    simp only [List.drop_succ_cons, List.drop_zero]
    have hok : ∀ p ∈ ("HREF", pyStr (some us)) ::
        (optPair "ADD_DATE" ad ++ optPair "ICON" ic),
        attrNameOk p.1 = true ∧ ∀ c ∈ p.2.data, c ≠ '"' := by
      intro p hp
      rcases List.mem_cons.mp hp with h | h
      · rw [h]; exact ⟨rfl, husq⟩
      · rcases List.mem_append.mp h with h2 | h2
        · exact optPair_ok "ADD_DATE" rfl ad had p h2
        · exact optPair_ok "ICON" rfl ic hic p h2
    rw [parseAttrs_attrsChars _ _ hok]
    have htitle : (escapeChars t.data ++ ('<':: '/':: 'A':: '>':: '\n'::
        (chunksChars (write_items rest lvl) ++ cs))).takeWhile
          (· ≠ '<') = escapeChars t.data := by
      rw [takeWhile_append_all (fun c hc => by
        simp [(escapeChars_not_lt hc).1])]
      simp [List.takeWhile_cons]
    have hafter : ((escapeChars t.data ++ ('<':: '/':: 'A':: '>':: '\n'::
        (chunksChars (write_items rest lvl) ++ cs))).dropWhile
          (· ≠ '<')).drop 4 =
        '\n'::(chunksChars (write_items rest lvl) ++ cs) := by
      rw [dropWhile_append_all (fun c hc => by
        simp [(escapeChars_not_lt hc).1])]
      rfl
    rw [htitle, hafter]
    have hsibs := parseNodes_write_items rest lvl fuel ['\n'] cs tail hrest
      hfrest (by intro c hc; rcases List.mem_singleton.mp hc with rfl; rfl)
      hclose
    rw [show ('\n'::(chunksChars (write_items rest lvl) ++ cs)) =
        ['\n'] ++ (chunksChars (write_items rest lvl) ++ cs) from by simp]
    rw [hsibs]
    simp only [mnodesOf, List.map_cons, List.map_append,
      (map_lower_optPair ad).1, (map_lower_optPair ic).2.2,
      unescape_escapeChars, string_mk_data]
    rfl
termination_by (sizeOf items, 0)

theorem folder_attr_lookup (ad lm : Option String) (had : wfOpt ad = true)
    (hlm : wfOpt lm = true) :
    (optPair "add_date" ad ++ optPair "last_modified" lm).lookup "add_date"
        = ad ∧
    (optPair "add_date" ad ++ optPair "last_modified" lm).lookup
        "last_modified" = lm := by
  match ad, lm with
  | none, none => simp [optPair, List.lookup]
  | none, some s2 =>
    simp only [wfOpt, Bool.and_eq_true, Bool.not_eq_true',
      beq_eq_false_iff_ne, ne_eq] at hlm
    simp [optPair, if_neg hlm.1, List.lookup]
  | some s1, none =>
    simp only [wfOpt, Bool.and_eq_true, Bool.not_eq_true',
      beq_eq_false_iff_ne, ne_eq] at had
    simp [optPair, if_neg had.1, List.lookup]
  | some s1, some s2 =>
    simp only [wfOpt, Bool.and_eq_true, Bool.not_eq_true',
      beq_eq_false_iff_ne, ne_eq] at had hlm
    simp [optPair, if_neg had.1, if_neg hlm.1, List.lookup]

theorem bookmark_attr_lookup (us : String) (ad ic : Option String)
    (had : wfOpt ad = true) (hic : wfOpt ic = true) :
    (("href", us) :: (optPair "add_date" ad ++ optPair "icon" ic)).lookup
        "href" = some us ∧
    (("href", us) :: (optPair "add_date" ad ++ optPair "icon" ic)).lookup
        "add_date" = ad ∧
    (("href", us) :: (optPair "add_date" ad ++ optPair "icon" ic)).lookup
        "icon" = ic := by
  match ad, ic with
  | none, none => simp [optPair, List.lookup]
  | none, some s2 =>
    simp only [wfOpt, Bool.and_eq_true, Bool.not_eq_true',
      beq_eq_false_iff_ne, ne_eq] at hic
    simp [optPair, if_neg hic.1, List.lookup]
  | some s1, none =>
    simp only [wfOpt, Bool.and_eq_true, Bool.not_eq_true',
      beq_eq_false_iff_ne, ne_eq] at had
    simp [optPair, if_neg had.1, List.lookup]
  | some s1, some s2 =>
    simp only [wfOpt, Bool.and_eq_true, Bool.not_eq_true',
      beq_eq_false_iff_ne, ne_eq] at had hic
    simp [optPair, if_neg had.1, if_neg hic.1, List.lookup]

/-- The extractor recovers a serialized tree from its canonical markup
nodes. -/
theorem dlChildren_mnodesOf (items : List Item)
    (hwf : wfItems items = true) :
    dlChildren (mnodesOf items) = items := by
  match items with
  | [] => simp [mnodesOf, dlChildren]
  | Item.folder t ad lm ch :: rest =>
    simp only [wfItems, wfItem, Bool.and_eq_true] at hwf
    obtain ⟨⟨⟨had, hlm⟩, hch⟩, hrest⟩ := hwf
    have hch' := dlChildren_mnodesOf ch hch
    have hrest' := dlChildren_mnodesOf rest hrest
    have hlook := folder_attr_lookup ad lm had hlm
    rw [mnodesOf, dlChildren]
    rw [hrest']
    simp only [MNode.name, Option.some.injEq]
    rw [if_pos trivial]
    rw [process_dt]
    have hidx3 : findDirectIdx "h3"
        [MNode.elem "h3" (optPair "add_date" ad ++ optPair "last_modified" lm)
          [MNode.text t], MNode.elem "dl" [] (mnodesOf ch)] = some 0 := rfl
    have hidxa : findDirectIdx "a"
        [MNode.elem "h3" (optPair "add_date" ad ++ optPair "last_modified" lm)
          [MNode.text t], MNode.elem "dl" [] (mnodesOf ch)] = none := rfl
    have hown : dtOwnItems
        [MNode.elem "h3" (optPair "add_date" ad ++ optPair "last_modified" lm)
          [MNode.text t], MNode.elem "dl" [] (mnodesOf ch)] =
        [Item.folder
          (getText (MNode.elem "h3"
            (optPair "add_date" ad ++ optPair "last_modified" lm)
            [MNode.text t]))
          (attOf (MNode.elem "h3"
            (optPair "add_date" ad ++ optPair "last_modified" lm)
            [MNode.text t]) "add_date")
          (attOf (MNode.elem "h3"
            (optPair "add_date" ad ++ optPair "last_modified" lm)
            [MNode.text t]) "last_modified")
          (process_dl (MNode.elem "dl" [] (mnodesOf ch)))] := by
      rw [dtOwnItems]
      rfl
    have hloop : dtLoop
        (findDirectIdx "h3"
          [MNode.elem "h3"
            (optPair "add_date" ad ++ optPair "last_modified" lm)
            [MNode.text t], MNode.elem "dl" [] (mnodesOf ch)])
        (findDirectIdx "a"
          [MNode.elem "h3"
            (optPair "add_date" ad ++ optPair "last_modified" lm)
            [MNode.text t], MNode.elem "dl" [] (mnodesOf ch)])
        0
        [MNode.elem "h3" (optPair "add_date" ad ++ optPair "last_modified" lm)
          [MNode.text t], MNode.elem "dl" [] (mnodesOf ch)] = [] := by
      rw [hidx3, hidxa]
      simp [dtLoop, MNode.name]
    rw [hown, hloop, process_dl, hch']
    simp [getText, getTexts, attOf, hlook.1, hlook.2, String.append_empty]
  | Item.bookmark t u ad ic :: rest =>
    simp only [wfItems, wfItem, Bool.and_eq_true] at hwf
    obtain ⟨⟨⟨hu, had⟩, hic⟩, hrest⟩ := hwf
    obtain ⟨us, rfl⟩ : ∃ us, u = some us := by
      match u with
      | some us => exact ⟨us, rfl⟩
      | none => simp at hu
    have hrest' := dlChildren_mnodesOf rest hrest
    have hlook := bookmark_attr_lookup us ad ic had hic
    rw [mnodesOf, dlChildren]
    rw [hrest']
    simp only [MNode.name, Option.some.injEq]
    rw [if_pos trivial]
    rw [process_dt]
    have hidx3 : findDirectIdx "h3"
        [MNode.elem "a" (("href", pyStr (some us)) ::
          (optPair "add_date" ad ++ optPair "icon" ic)) [MNode.text t]]
        = none := rfl
    have hidxa : findDirectIdx "a"
        [MNode.elem "a" (("href", pyStr (some us)) ::
          (optPair "add_date" ad ++ optPair "icon" ic)) [MNode.text t]]
        = some 0 := rfl
    have hown : dtOwnItems
        [MNode.elem "a" (("href", pyStr (some us)) ::
          (optPair "add_date" ad ++ optPair "icon" ic)) [MNode.text t]] =
        [Item.bookmark
          (getText (MNode.elem "a" (("href", pyStr (some us)) ::
            (optPair "add_date" ad ++ optPair "icon" ic)) [MNode.text t]))
          (attOf (MNode.elem "a" (("href", pyStr (some us)) ::
            (optPair "add_date" ad ++ optPair "icon" ic)) [MNode.text t])
            "href")
          (attOf (MNode.elem "a" (("href", pyStr (some us)) ::
            (optPair "add_date" ad ++ optPair "icon" ic)) [MNode.text t])
            "add_date")
          (attOf (MNode.elem "a" (("href", pyStr (some us)) ::
            (optPair "add_date" ad ++ optPair "icon" ic)) [MNode.text t])
            "icon")] := by
      rw [dtOwnItems]
      rfl
    have hloop : dtLoop
        (findDirectIdx "h3"
          [MNode.elem "a" (("href", pyStr (some us)) ::
            (optPair "add_date" ad ++ optPair "icon" ic)) [MNode.text t]])
        (findDirectIdx "a"
          [MNode.elem "a" (("href", pyStr (some us)) ::
            (optPair "add_date" ad ++ optPair "icon" ic)) [MNode.text t]])
        0
        [MNode.elem "a" (("href", pyStr (some us)) ::
          (optPair "add_date" ad ++ optPair "icon" ic)) [MNode.text t]]
        = [] := by
      rw [hidx3, hidxa]
      simp [dtLoop, MNode.name]
    rw [hown, hloop]
    simp [getText, getTexts, attOf, pyStr, hlook.1, hlook.2.1, hlook.2.2,
      String.append_empty]
termination_by (sizeOf items, 0)

/-- The reader's fuel bound: the serialized body is at least as long as the
fuel the parse needs. -/
theorem parseFuel_le_length (items : List Item) (lvl : Nat) :
    parseFuel items ≤ (chunksChars (write_items items lvl)).length := by
  match items with
  | [] => simp [parseFuel, write_items, chunksChars]
  | Item.folder t ad lm ch :: rest =>
    have ih1 := parseFuel_le_length ch (lvl + 1)
    have ih2 := parseFuel_le_length rest lvl
    simp only [parseFuel, write_items, chunksChars, chunksChars_append,
      List.length_append, String.data_append, string_mk_data,
      List.length_replicate, indent]
    simp only [List.length_cons, List.length_nil] at *
    omega
  | Item.bookmark t u ad ic :: rest =>
    have ih2 := parseFuel_le_length rest lvl
    simp only [parseFuel, write_items, chunksChars, chunksChars_append,
      List.length_append, String.data_append, string_mk_data,
      List.length_replicate, indent]
    simp only [List.length_cons, List.length_nil] at *
    omega
termination_by (sizeOf items, 1)

/-- Round trip for well-formed trees: serializing and re-reading through the
modelled reader reproduces the tree exactly. -/
theorem roundtrip_of_wf (items : List Item) (hwf : wfItems items = true) :
    read_bookmarks (serializeString items) = items := by
  have hdata : (serializeString items).data =
      netscapeHeader.data ++
        (chunksChars (write_items items 1) ++ netscapeFooter.data) := by
    simp [serializeString, allChunks, chunksChars, chunksChars_append]
  simp only [read_bookmarks]
  rw [hdata]
  rw [if_pos (startsWith_append_self _ _)]
  rw [List.drop_left]
  have hfuel : parseFuel items <
      (chunksChars (write_items items 1) ++ netscapeFooter.data).length + 1 := by
    have := parseFuel_le_length items 1
    simp only [List.length_append]
    omega
  have hparse := parseNodes_write_items items 1
    ((chunksChars (write_items items 1) ++ netscapeFooter.data).length + 1)
    [] netscapeFooter.data [] hwf hfuel (by simp) (by rfl)
  rw [List.nil_append] at hparse
  rw [hparse]
  rw [process_dl]
  exact dlChildren_mnodesOf items hwf

/-! ## Extractor lemmas -/

theorem dtLoop_eq_flatMap (h3i ai : Option Nat) :
    ∀ (cs : List MNode) (i : Nat),
      (∀ n, h3i = some n → i ≤ n → ∀ c, cs[n - i]? = some c →
        c.name = some "h3") →
      (∀ n, ai = some n → i ≤ n → ∀ c, cs[n - i]? = some c →
        c.name = some "a") →
      dtLoop h3i ai i cs = cs.flatMap extractChild := by
  intro cs
  induction cs with
  | nil => intro i _ _; simp [dtLoop]
  | cons c cs ih =>
    intro i hh3 ha
    have tail : dtLoop h3i ai (i + 1) cs = cs.flatMap extractChild := by
      refine ih (i + 1) (fun n hn hi c' hc' => ?_) (fun n hn hi c' hc' => ?_)
      · refine hh3 n hn (by omega) c' ?_
        have : n - i = (n - (i + 1)) + 1 := by omega
        rw [this]
        simpa using hc'
      · refine ha n hn (by omega) c' ?_
        have : n - i = (n - (i + 1)) + 1 := by omega
        rw [this]
        simpa using hc'
    rw [dtLoop, tail, List.flatMap_cons]
    congr 1
    by_cases hskip : some i = h3i ∨ some i = ai
    · rw [if_pos hskip]
      rcases hskip with hs | hs
      · have := hh3 i hs.symm (le_refl i) c (by simp)
        simp [extractChild, this]
      · have := ha i hs.symm (le_refl i) c (by simp)
        simp [extractChild, this]
    · rw [if_neg hskip]
      by_cases hdl : c.name = some "dl" <;> simp [extractChild, hdl]

theorem flatMap_eq_on {f g : MNode → List Item} :
    ∀ cs : List MNode, (∀ c ∈ cs, f c = g c) →
      cs.flatMap f = cs.flatMap g := by
  intro cs
  induction cs with
  | nil => intro _; rfl
  | cons c cs ih =>
    intro h
    simp only [List.flatMap_cons, h c (by simp), ih fun d hd => h d (by simp [hd])]

theorem flatMap_filter_of_nil {p : MNode → Bool} {f : MNode → List Item}
    (hf : ∀ c, p c = false → f c = []) :
    ∀ cs : List MNode, (cs.filter p).flatMap f = cs.flatMap f := by
  intro cs
  induction cs with
  | nil => rfl
  | cons c cs ih =>
    by_cases hc : p c
    · simp [List.filter_cons, hc, ih]
    · simp only [Bool.not_eq_true] at hc
      simp [List.filter_cons, hc, ih, hf c hc]

/-! ## Folder unification: titles and in-place extension

General consequences of `recursive_merge` for folder structure, at any
configuration and for arbitrary trees: the top-level folder titles of the
merged target evolve by first-occurrence accumulation, and a merge pass
never disturbs existing items — it extends folders in place and appends
new items at the end. -/

/-- The titles of the top-level folders of a list, in order. -/
def folderTitles : List Item → List String
  | [] => []
  | Item.folder t _ _ _ :: xs => t :: folderTitles xs
  | Item.bookmark _ _ _ _ :: xs => folderTitles xs

/-- First-occurrence accumulation of titles into an existing title list:
the transformation one merge pass applies to one level's folder titles. -/
def addTitles : List String → List String → List String
  | acc, [] => acc
  | acc, t :: ts => addTitles (if t ∈ acc then acc else acc ++ [t]) ts

mutual

/-- `itemExt a b`: `b` is `a` after in-place merging — a bookmark is
unchanged, a folder keeps its title and attributes while its children are
extended (`listExt`). -/
def itemExt : Item → Item → Bool
  | .folder t ad lm ch, .folder t2 ad2 lm2 ch2 =>
    t == t2 && ad == ad2 && lm == lm2 && listExt ch ch2
  | .bookmark t u ad ic, .bookmark t2 u2 ad2 ic2 =>
    t == t2 && u == u2 && ad == ad2 && ic == ic2
  | _, _ => false

/-- `listExt xs ys`: every element of `xs` is still at its index in `ys`,
itself extended in place, and `ys` may add further items after them. -/
def listExt : List Item → List Item → Bool
  | [], _ => true
  | _ :: _, [] => false
  | x :: xs, y :: ys => itemExt x y && listExt xs ys

end

mutual

theorem itemExt_refl : ∀ a : Item, itemExt a a = true
  | .folder t ad lm ch => by simp [itemExt, listExt_refl ch]
  | .bookmark t u ad ic => by simp [itemExt]

theorem listExt_refl : ∀ xs : List Item, listExt xs xs = true
  | [] => by simp [listExt]
  | x :: xs => by simp [listExt, itemExt_refl x, listExt_refl xs]

end

theorem listExt_append_self (xs ys : List Item) :
    listExt xs (xs ++ ys) = true := by
  induction xs with
  | nil => simp [listExt]
  | cons x xs ih => simp [listExt, itemExt_refl x, ih]

mutual

theorem itemExt_trans : ∀ (a b d : Item), itemExt a b = true →
    itemExt b d = true → itemExt a d = true
  | .folder t ad lm ch, .folder t2 ad2 lm2 ch2, .folder t3 ad3 lm3 ch3 => by
    simp only [itemExt, Bool.and_eq_true, beq_iff_eq]
    rintro ⟨⟨⟨rfl, rfl⟩, rfl⟩, hl1⟩ ⟨⟨⟨rfl, rfl⟩, rfl⟩, hl2⟩
    exact ⟨⟨⟨rfl, rfl⟩, rfl⟩, listExt_trans ch ch2 ch3 hl1 hl2⟩
  | .bookmark t u ad ic, .bookmark t2 u2 ad2 ic2, .bookmark t3 u3 ad3 ic3 => by
    simp only [itemExt, Bool.and_eq_true, beq_iff_eq]
    rintro ⟨⟨⟨rfl, rfl⟩, rfl⟩, rfl⟩ h2
    exact h2
  | .bookmark _ _ _ _, .bookmark _ _ _ _, .folder _ _ _ _ => by
    intro _ h; simp [itemExt] at h
  | .folder _ _ _ _, .bookmark _ _ _ _, _ => by
    intro h _; simp [itemExt] at h
  | .bookmark _ _ _ _, .folder _ _ _ _, _ => by
    intro h _; simp [itemExt] at h
  | .folder _ _ _ _, .folder _ _ _ _, .bookmark _ _ _ _ => by
    intro _ h; simp [itemExt] at h

theorem listExt_trans : ∀ (xs ys zs : List Item), listExt xs ys = true →
    listExt ys zs = true → listExt xs zs = true
  | [], _, _ => by intro _ _; simp [listExt]
  | _ :: _, [], _ => by intro h _; simp [listExt] at h
  | _ :: _, _ :: _, [] => by intro _ h; simp [listExt] at h
  | x :: xs, y :: ys, z :: zs => by
    simp only [listExt, Bool.and_eq_true]
    rintro ⟨h1, h2⟩ ⟨h3, h4⟩
    exact ⟨itemExt_trans x y z h1 h3, listExt_trans xs ys zs h2 h4⟩

end

mutual

/-- A merge pass extends its target in place: no existing item moves or
changes except folders whose children lists grow at the end, and new items
are appended after all existing ones — at every nesting level. -/
theorem rm_ext (c : MergeConfig) (target source : List Item)
    (path : List String) (seen : List (List KeyComp)) (dups : Nat) :
    listExt target (recursive_merge c target source path seen dups).1 = true := by
  match source with
  | [] => simp [recursive_merge, listExt_refl]
  | item :: rest =>
    rw [recursive_merge]
    have h1 := mi_ext c target item path seen dups
    have h2 := rm_ext c (merge_item c target item path seen dups).1 rest path
      (merge_item c target item path seen dups).2.1
      (merge_item c target item path seen dups).2.2
    exact listExt_trans _ _ _ h1 h2
termination_by (sizeOf source, 0, 0)

/-- In-place extension for one source item. -/
theorem mi_ext (c : MergeConfig) (target : List Item) (item : Item)
    (path : List String) (seen : List (List KeyComp)) (dups : Nat) :
    listExt target (merge_item c target item path seen dups).1 = true := by
  match item with
  | .folder t ad lm ch =>
    rw [merge_item]
    exact mf_ext c target t ad lm ch path seen dups
  | .bookmark t u ad ic =>
    rw [merge_item]
    by_cases hrd : c.remove_duplicates
    · by_cases hk : get_key c t u path ∈ seen <;>
        simp [hrd, hk, listExt_refl, listExt_append_self]
    · simp only [Bool.not_eq_true] at hrd
      simp [hrd, listExt_append_self]
termination_by (sizeOf item, 0, 0)

/-- In-place extension for a source folder merged into `target`. -/
theorem mf_ext (c : MergeConfig) (target : List Item) (t : String)
    (ad lm : Option String) (ch : List Item) (path : List String)
    (seen : List (List KeyComp)) (dups : Nat) :
    listExt target (merge_folder c target t ad lm ch path seen dups).1 = true := by
  match target with
  | [] => simp [merge_folder, listExt]
  | Item.folder t2 ad2 lm2 ch2 :: xs =>
    by_cases ht2 : t2 = t
    · have h := rm_ext c ch2 ch (path ++ [t]) seen dups
      simp [merge_folder, ht2, listExt, itemExt, h, listExt_refl]
    · have h := mf_ext c xs t ad lm ch path seen dups
      simp [merge_folder, ht2, listExt, itemExt, h, listExt_refl]
  | Item.bookmark t2 u2 ad2 ic2 :: xs =>
    have h := mf_ext c xs t ad lm ch path seen dups
    simp [merge_folder, listExt, itemExt, h]
termination_by (sizeOf ch, 1, sizeOf target)

end

theorem folderTitles_append (xs ys : List Item) :
    folderTitles (xs ++ ys) = folderTitles xs ++ folderTitles ys := by
  induction xs with
  | nil => rfl
  | cons x xs ih =>
    match x with
    | Item.folder t ad lm ch => simp [folderTitles, ih]
    | Item.bookmark t u ad ic => simp [folderTitles, ih]

/-- `merge_folder` leaves the top-level titles unchanged when the title is
already present and appends it at the end otherwise. -/
theorem mf_titles (c : MergeConfig) :
    ∀ (target : List Item) (t : String) (ad lm : Option String)
      (ch : List Item) (path : List String) (seen : List (List KeyComp))
      (dups : Nat),
      folderTitles (merge_folder c target t ad lm ch path seen dups).1 =
        if t ∈ folderTitles target then folderTitles target
        else folderTitles target ++ [t] := by
  intro target
  induction target with
  | nil => intro t ad lm ch path seen dups; simp [merge_folder, folderTitles]
  | cons x xs ih =>
    intro t ad lm ch path seen dups
    match x with
    | Item.folder t2 ad2 lm2 ch2 =>
      by_cases ht2 : t2 = t
      · subst ht2
        simp [merge_folder, folderTitles]
      · rcases Classical.em (t ∈ folderTitles xs) with hmem | hmem
        · simp [merge_folder, ht2, folderTitles, ih, hmem]
        · simp [merge_folder, ht2, folderTitles, ih, hmem, Ne.symm ht2]
    | Item.bookmark t2 u2 ad2 ic2 =>
      simp [merge_folder, folderTitles, ih]

/-- One merge pass transforms the target's top-level folder titles by
first-occurrence accumulation of the source's top-level folder titles. -/
theorem rm_titles (c : MergeConfig) :
    ∀ (source target : List Item) (path : List String)
      (seen : List (List KeyComp)) (dups : Nat),
      folderTitles (recursive_merge c target source path seen dups).1 =
        addTitles (folderTitles target) (folderTitles source) := by
  intro source
  induction source with
  | nil =>
    intro target path seen dups
    simp [recursive_merge, folderTitles, addTitles]
  | cons item rest ih =>
    intro target path seen dups
    rw [recursive_merge]
    match item with
    | Item.folder t ad lm ch =>
      have hmi : folderTitles
          (merge_item c target (Item.folder t ad lm ch) path seen dups).1 =
          if t ∈ folderTitles target then folderTitles target
          else folderTitles target ++ [t] := by
        rw [merge_item]
        exact mf_titles c target t ad lm ch path seen dups
      rw [ih]
      rw [hmi]
      simp [folderTitles, addTitles]
    | Item.bookmark t u ad ic =>
      have hmi : folderTitles
          (merge_item c target (Item.bookmark t u ad ic) path seen dups).1 =
          folderTitles target := by
        rw [merge_item]
        by_cases hrd : c.remove_duplicates
        · by_cases hk : get_key c t u path ∈ seen <;>
            simp [hrd, hk, folderTitles_append, folderTitles]
        · simp only [Bool.not_eq_true] at hrd
          simp [hrd, folderTitles_append, folderTitles]
      rw [ih, hmi]
      simp [folderTitles]

theorem addTitles_nodup : ∀ (ts acc : List String), acc.Nodup →
    (addTitles acc ts).Nodup
  | [], acc => by intro h; simpa [addTitles] using h
  | t :: ts, acc => by
    intro h
    rw [addTitles]
    by_cases hm : t ∈ acc
    · rw [if_pos hm]
      exact addTitles_nodup ts acc h
    · rw [if_neg hm]
      refine addTitles_nodup ts _
        (h.append (List.nodup_singleton t) ?_)
      intro x hx hxt
      rw [List.mem_singleton] at hxt
      exact hm (hxt ▸ hx)

theorem addTitles_mem : ∀ (ts acc : List String) (T : String),
    T ∈ addTitles acc ts ↔ T ∈ acc ∨ T ∈ ts
  | [], acc, T => by simp [addTitles]
  | t :: ts, acc, T => by
    rw [addTitles]
    by_cases hm : t ∈ acc
    · rw [if_pos hm, addTitles_mem ts acc T]
      have h3 : T = t → T ∈ acc := fun h => h ▸ hm
      simp only [List.mem_cons]
      tauto
    · rw [if_neg hm, addTitles_mem ts (acc ++ [t]) T]
      simp only [List.mem_append, List.mem_singleton, List.mem_cons]
      tauto

theorem count_eq_one_of_nodup_mem {l : List String} {T : String}
    (h : l.Nodup) (hm : T ∈ l) : l.count T = 1 := by
  have h1 : 0 < l.count T := List.count_pos_iff.mpr hm
  have h2 : l.count T ≤ 1 := List.nodup_iff_count_le_one.mp h T
  omega

theorem listExt_getElem? : ∀ (xs ys : List Item),
    listExt xs ys = true → ∀ (i : Nat) (x : Item), xs[i]? = some x →
      ∃ y, ys[i]? = some y ∧ itemExt x y = true
  | [], _ => by intro _ i x hx; simp at hx
  | _ :: _, [] => by intro h; simp [listExt] at h
  | x0 :: xs, y0 :: ys => by
    intro h i x hx
    simp only [listExt, Bool.and_eq_true] at h
    match i with
    | 0 =>
      simp only [List.getElem?_cons_zero, Option.some.injEq] at hx
      subst hx
      exact ⟨y0, by simp, h.1⟩
    | i + 1 =>
      simp only [List.getElem?_cons_succ] at hx ⊢
      exact listExt_getElem? xs ys h.2 i x hx

theorem itemExt_folder {t : String} {ad lm : Option String} {ch : List Item}
    {y : Item} (h : itemExt (Item.folder t ad lm ch) y = true) :
    ∃ ch2, y = Item.folder t ad lm ch2 ∧ listExt ch ch2 = true := by
  match y with
  | Item.folder t2 ad2 lm2 ch2 =>
    simp only [itemExt, Bool.and_eq_true, beq_iff_eq] at h
    obtain ⟨⟨⟨rfl, rfl⟩, rfl⟩, h2⟩ := h
    exact ⟨ch2, rfl, h2⟩
  | Item.bookmark _ _ _ _ => simp [itemExt] at h

/-! ## Claim theorems -/

/-- C1 fails on the code: a `dt` holding a link element with no `href`
attribute yields a Bookmark with missing url that does appear in the
extracted tree — `process_dt` never filters on the url. -/
theorem urlless_bookmark_kept_cex :
    parse_markup [MNode.elem "dl" []
        [MNode.elem "dt" [] [MNode.elem "a" [] [MNode.text "x"]]]] =
      [Item.bookmark "x" none none none] ∧
    noUrllessBookmarks (parse_markup [MNode.elem "dl" []
        [MNode.elem "dt" [] [MNode.elem "a" [] [MNode.text "x"]]]]) = false := by
  constructor <;>
    simp [parse_markup, parse_markup.findFirstDl, process_dl, dlChildren,
      process_dt, dtOwnItems, dtLoop, findDirectIdx, nodeAt, getText,
      getTexts, attOf, MNode.name, noUrllessBookmarks, noUrllessBookmark]

/-- C1 amended: the extractor performs no url validity check.  A `dt`
element with no direct heading child whose first direct link child lacks
an `href` attribute produces a Bookmark with a missing url, and that
bookmark appears (first) in `process_dt`'s output. -/
theorem urlless_bookmark_kept (tg : String) (ats : List (String × String))
    (kids : List MNode) (a : MNode)
    (hh3 : findDirectIdx "h3" kids = none)
    (ha : nodeAt kids (findDirectIdx "a" kids) = some a)
    (hhref : attOf a "href" = none) :
    ∃ rest, process_dt (MNode.elem tg ats kids) =
      Item.bookmark (getText a) none (attOf a "add_date") (attOf a "icon")
        :: rest := by
  refine ⟨dtLoop (findDirectIdx "h3" kids) (findDirectIdx "a" kids) 0 kids, ?_⟩
  have h1 : nodeAt kids (findDirectIdx "h3" kids) = none := by
    rw [hh3]
    rfl
  rw [process_dt, dtOwnItems, h1, ha]
  simp [hhref]

/-- Witness for the amended C1 at a concrete href-less link. -/
theorem urlless_bookmark_kept_witness :
    ∃ rest, process_dt (MNode.elem "dt" []
        [MNode.elem "a" [] [MNode.text "x"]]) =
      Item.bookmark "x" none none none :: rest := by
  have h := urlless_bookmark_kept "dt" [] [MNode.elem "a" [] [MNode.text "x"]]
    (MNode.elem "a" [] [MNode.text "x"]) (by rfl) (by rfl) (by rfl)
  obtain ⟨rest, hr⟩ := h
  refine ⟨rest, ?_⟩
  rw [hr]
  simp [getText, getTexts, attOf]

/-- C3: `process_dt` on a `dt` element yields the term's own node (if any)
followed by the recursive extraction of every further direct child that is
a `dt` or `p` element, in order; the consumed heading, link and
definition-list elements (which are never `dt`/`p` children) contribute
nothing to the recovery loop and are not processed twice. -/
theorem process_dt_sibling_recovery (tg : String)
    (ats : List (String × String)) (kids : List MNode) :
    process_dt (MNode.elem tg ats kids) =
      dtOwnItems kids ++
        (kids.filter fun c => c.name == some "dt" || c.name == some "p").flatMap
          (fun c => if c.name = some "dt" then process_dt c
            else process_container c) := by
  have hloop : dtLoop (findDirectIdx "h3" kids) (findDirectIdx "a" kids) 0 kids
      = kids.flatMap extractChild := by
    refine dtLoop_eq_flatMap _ _ kids 0 (fun n hn _ c hc => ?_)
      (fun n hn _ c hc => ?_)
    · obtain ⟨c0, hc0, hname⟩ := findDirectIdx_name hn
      simp only [Nat.sub_zero] at hc
      have : c = c0 := Option.some_inj.mp (hc.symm.trans hc0)
      rw [this]
      exact hname
    · obtain ⟨c0, hc0, hname⟩ := findDirectIdx_name hn
      simp only [Nat.sub_zero] at hc
      have : c = c0 := Option.some_inj.mp (hc.symm.trans hc0)
      rw [this]
      exact hname
  have h1 : ∀ c ∈ kids.filter
      (fun c => c.name == some "dt" || c.name == some "p"),
      (if c.name = some "dt" then process_dt c else process_container c) =
        extractChild c := by
    intro c hcmem
    have hp := (List.mem_filter.mp hcmem).2
    simp only [Bool.or_eq_true, beq_iff_eq] at hp
    rcases hp with h | h <;> simp [extractChild, h]
  have h2 : ∀ c, (c.name == some "dt" || c.name == some "p") = false →
      extractChild c = [] := by
    intro c hc
    simp only [Bool.or_eq_false_iff, beq_eq_false_iff_ne, ne_eq] at hc
    simp [extractChild, hc.1, hc.2]
  rw [process_dt, hloop, flatMap_eq_on _ h1, flatMap_filter_of_nil h2]

/-- C10: with dedup enabled, every bookmark of every source tree is either
in the merged tree or counted as a duplicate, exactly once: merged
bookmark count plus reported duplicate count equals the total bookmark
count over all source trees. -/
theorem merged_plus_duplicates_conservation (c : MergeConfig)
    (files : List (List Item)) (_h : c.remove_duplicates = true) :
    bmCounts (merge_all c files).1 + (merge_all c files).2.2 =
      (files.map bmCounts).sum := by
  have gen : ∀ (fs : List (List Item)) (acc : List Item × List (List KeyComp) × Nat),
      bmCounts (merge_files c acc fs).1 + (merge_files c acc fs).2.2 =
        bmCounts acc.1 + (fs.map bmCounts).sum + acc.2.2 := by
    intro fs
    induction fs with
    | nil => intro acc; simp [merge_files]
    | cons f fs ih =>
      intro acc
      rw [merge_files]
      have h1 := recursive_merge_count c acc.1 f [] acc.2.1 acc.2.2
      have h2 := ih (recursive_merge c acc.1 f [] acc.2.1 acc.2.2)
      simp only [List.map_cons, List.sum_cons] at *
      omega
  have hg := gen files ([], [], 0)
  simpa [merge_all, bmCounts] using hg

/-- Witness for C10 at two one-bookmark files sharing a url. -/
theorem merged_plus_duplicates_conservation_witness :
    bmCounts (merge_all ⟨true, false, false, true⟩
        [[Item.bookmark "a" (some "u") none none],
         [Item.bookmark "a" (some "u") none none]]).1 +
      (merge_all ⟨true, false, false, true⟩
        [[Item.bookmark "a" (some "u") none none],
         [Item.bookmark "a" (some "u") none none]]).2.2 =
      ([[Item.bookmark "a" (some "u") none none],
        [Item.bookmark "a" (some "u") none none]].map bmCounts).sum :=
  merged_plus_duplicates_conservation ⟨true, false, false, true⟩
    [[Item.bookmark "a" (some "u") none none],
     [Item.bookmark "a" (some "u") none none]] rfl

/-- C4 fails as stated: when the same-titled folders hold same-titled
subfolders, the sub-merge mutates the first source's children in place, so
the unified folder's children are not "the first source's children
followed by the second source's new children" — here the merged `Work`
folder's children list does not even begin with the first source's
children. -/
theorem folder_unification_cex :
    (merge_all ⟨false, false, false, false⟩
        [[Item.folder "Work" none none
            [Item.folder "A" none none
              [Item.bookmark "x" (some "u1") none none]]],
         [Item.folder "Work" none none
            [Item.folder "A" none none
              [Item.bookmark "y" (some "u2") none none]]]]).1 =
      [Item.folder "Work" none none
        [Item.folder "A" none none
          [Item.bookmark "x" (some "u1") none none,
           Item.bookmark "y" (some "u2") none none]]] ∧
    ¬ List.IsPrefix
        [Item.folder "A" none none [Item.bookmark "x" (some "u1") none none]]
        [Item.folder "A" none none
          [Item.bookmark "x" (some "u1") none none,
           Item.bookmark "y" (some "u2") none none]] := by
  constructor
  · simp [merge_all, merge_files, recursive_merge, merge_item, merge_folder]
  · rintro ⟨tail, htail⟩
    simp at htail

/-- C4 amended: for every pair of sources each holding a top-level folder
titled `T` — at any position, with any nesting and any configuration —
the merged tree holds exactly one top-level folder titled `T` (top-level
folder titles are pairwise distinct); merging the second source extends
the tree left by the first strictly in place: every existing item keeps
its index, folders keep title and attributes with children only growing
at the end (recursively), and new items are appended after all existing
ones.  In particular every folder present after the first source keeps
its position, attributes and leading children. -/
theorem folder_unification (c : MergeConfig) (s1 s2 : List Item) (T : String)
    (h1 : T ∈ folderTitles s1) (_h2 : T ∈ folderTitles s2) :
    ((folderTitles (merge_all c [s1, s2]).1).count T = 1 ∧
      (folderTitles (merge_all c [s1, s2]).1).Nodup) ∧
    listExt (recursive_merge c [] s1 [] [] 0).1
      (merge_all c [s1, s2]).1 = true ∧
    (∀ (i : Nat) (t : String) (ad lm : Option String) (ch : List Item),
      ((recursive_merge c [] s1 [] [] 0).1)[i]? =
          some (Item.folder t ad lm ch) →
      ∃ ch2, ((merge_all c [s1, s2]).1)[i]? =
          some (Item.folder t ad lm ch2) ∧ listExt ch ch2 = true) := by
  have hma : merge_all c [s1, s2] =
      recursive_merge c (recursive_merge c [] s1 [] [] 0).1 s2 []
        (recursive_merge c [] s1 [] [] 0).2.1
        (recursive_merge c [] s1 [] [] 0).2.2 := by
    simp [merge_all, merge_files]
  have hext : listExt (recursive_merge c [] s1 [] [] 0).1
      (merge_all c [s1, s2]).1 = true := by
    rw [hma]
    exact rm_ext c _ s2 [] _ _
  have htitles : folderTitles (merge_all c [s1, s2]).1 =
      addTitles (addTitles (folderTitles []) (folderTitles s1))
        (folderTitles s2) := by
    rw [hma, rm_titles, rm_titles]
  have hnd : (folderTitles (merge_all c [s1, s2]).1).Nodup := by
    rw [htitles]
    exact addTitles_nodup _ _ (addTitles_nodup _ _ List.nodup_nil)
  have hmem : T ∈ folderTitles (merge_all c [s1, s2]).1 := by
    rw [htitles, addTitles_mem]
    exact Or.inl ((addTitles_mem _ _ _).mpr (Or.inr h1))
  refine ⟨⟨count_eq_one_of_nodup_mem hnd hmem, hnd⟩, hext, ?_⟩
  intro i t ad lm ch hi
  obtain ⟨y, hy, hxt⟩ := listExt_getElem? _ _ hext i _ hi
  obtain ⟨ch2, rfl, hle⟩ := itemExt_folder hxt
  exact ⟨ch2, hy, hle⟩

/-- C4 witness: a url-dedup merge of two concrete sources sharing a `Work`
folder, heading the first source and sitting second in the other. -/
theorem folder_unification_witness :
    ("Work" ∈ folderTitles
        [Item.folder "Work" none none
          [Item.bookmark "a" (some "u") none none]] ∧
      "Work" ∈ folderTitles
        [Item.bookmark "z" (some "w") none none,
         Item.folder "Work" none none
           [Item.bookmark "b" (some "v") none none]]) ∧
    (folderTitles (merge_all ⟨true, false, false, true⟩
        [[Item.folder "Work" none none
            [Item.bookmark "a" (some "u") none none]],
         [Item.bookmark "z" (some "w") none none,
          Item.folder "Work" none none
            [Item.bookmark "b" (some "v") none none]]]).1).count "Work" = 1 ∧
    listExt (recursive_merge ⟨true, false, false, true⟩ []
        [Item.folder "Work" none none
          [Item.bookmark "a" (some "u") none none]] [] [] 0).1
      (merge_all ⟨true, false, false, true⟩
        [[Item.folder "Work" none none
            [Item.bookmark "a" (some "u") none none]],
         [Item.bookmark "z" (some "w") none none,
          Item.folder "Work" none none
            [Item.bookmark "b" (some "v") none none]]]).1 = true :=
  ⟨⟨by simp [folderTitles], by simp [folderTitles]⟩,
    (folder_unification ⟨true, false, false, true⟩
      [Item.folder "Work" none none
        [Item.bookmark "a" (some "u") none none]]
      [Item.bookmark "z" (some "w") none none,
       Item.folder "Work" none none
         [Item.bookmark "b" (some "v") none none]] "Work"
      (by simp [folderTitles]) (by simp [folderTitles])).1.1,
    (folder_unification ⟨true, false, false, true⟩
      [Item.folder "Work" none none
        [Item.bookmark "a" (some "u") none none]]
      [Item.bookmark "z" (some "w") none none,
       Item.folder "Work" none none
         [Item.bookmark "b" (some "v") none none]] "Work"
      (by simp [folderTitles]) (by simp [folderTitles])).2.1⟩

/-- C5 fails on the code: the destination is opened in write mode
(created/truncated) before the render is streamed, so a write failure
after the first chunk reports the error yet leaves a freshly created,
partially written destination. -/
theorem serialize_not_atomic_cex :
    (generate_netscape_html [Item.bookmark "t" (some "u") none none]
        none true 1 "disk full").2 = Sum.inr "disk full" ∧
    (generate_netscape_html [Item.bookmark "t" (some "u") none none]
        none true 1 "disk full").1 = some [netscapeHeader] := by
  constructor <;>
    simp [generate_netscape_html, allChunks, write_items, List.take]

/-- C5 amended: a failed open leaves the destination untouched and returns
the reason string; after a successful open the destination holds some
leading portion of the render, and the call returns `True` exactly when
that portion is the complete render (a mid-stream I/O error leaves the
already-written chunks behind and returns the reason string); the tree
itself is never modified. -/
theorem generate_netscape_html_partial (bookmarks : List Item)
    (prev : Option (List String)) (budget : Nat) (msg : String) :
    generate_netscape_html bookmarks prev false budget msg =
      (prev, Sum.inr msg) ∧
    (∃ written rest,
      (generate_netscape_html bookmarks prev true budget msg).1 =
        some written ∧
      allChunks bookmarks = written ++ rest ∧
      ((generate_netscape_html bookmarks prev true budget msg).2 =
        Sum.inl true ↔ rest = [])) := by
  constructor
  · simp [generate_netscape_html]
  · by_cases h : (allChunks bookmarks).length ≤ budget
    · exact ⟨allChunks bookmarks, [], by simp [generate_netscape_html, h],
        by simp, by simp [generate_netscape_html, h]⟩
    · refine ⟨(allChunks bookmarks).take budget,
        (allChunks bookmarks).drop budget,
        by simp [generate_netscape_html, h], by simp, ?_⟩
      simp [generate_netscape_html, h, List.drop_eq_nil_iff]

/-- C6: dedup requested with no criterion selected is rejected before any
input file is processed: configuration-error outcome, zero files
processed, destination file untouched. -/
theorem criteria_missing_rejection (files : List (List Item))
    (hne : files ≠ []) (savePathGiven : Bool) (prev : Option (List String))
    (openOk : Bool) (budget : Nat) (msg : String) :
    merge_bookmarks files true false false false savePathGiven prev openOk
        budget msg = (MergeOutcome.criteriaMissing, prev, 0) := by
  simp [merge_bookmarks, hne]

/-- Witness for C6 at a concrete nonempty file list. -/
theorem criteria_missing_rejection_witness :
    merge_bookmarks [[Item.bookmark "t" (some "u") none none]] true false
        false false true none true 100 "e" =
      (MergeOutcome.criteriaMissing, none, 0) :=
  criteria_missing_rejection [[Item.bookmark "t" (some "u") none none]]
    (by simp) true none true 100 "e"

/-- C8 as stated fails: merging a tree holding two bookmarks with the same
URL with itself under URL-only dedup reports 3 duplicates (one from the
first pass, two from the second), not the tree's bookmark count 2. -/
theorem merge_self_dup_count_cex :
    (merge_all urlConf
        [[Item.bookmark "a" (some "u") none none,
          Item.bookmark "b" (some "u") none none],
         [Item.bookmark "a" (some "u") none none,
          Item.bookmark "b" (some "u") none none]]).2.2 = 3 ∧
    bmCounts [Item.bookmark "a" (some "u") none none,
        Item.bookmark "b" (some "u") none none] = 2 ∧
    ¬ ((merge_all urlConf
        [[Item.bookmark "a" (some "u") none none,
          Item.bookmark "b" (some "u") none none],
         [Item.bookmark "a" (some "u") none none,
          Item.bookmark "b" (some "u") none none]]).2.2 =
      bmCounts [Item.bookmark "a" (some "u") none none,
        Item.bookmark "b" (some "u") none none]) := by
  refine ⟨?_, by simp [bmCounts, bmCount], ?_⟩ <;>
    simp [merge_all, merge_files, recursive_merge, merge_item,
      get_key_urlConf, urlConf_rd, bmCounts, bmCount]

/-- C8 amended: merging any tree with itself under URL-only dedup yields a
merged tree whose set of urls is exactly the original tree's, and when the
tree's bookmark URLs are pairwise distinct the reported duplicate count
equals the tree's bookmark count (internal duplicates inflate the count
beyond it). -/
theorem merge_self_url_set_and_count (T : List Item) :
    (∀ u, u ∈ listUrls (merge_all urlConf [T, T]).1 ↔ u ∈ listUrls T) ∧
    ((listUrls T).Nodup → (merge_all urlConf [T, T]).2.2 = bmCounts T) := by
  have hma : merge_all urlConf [T, T] =
      recursive_merge urlConf (recursive_merge urlConf [] T [] [] 0).1 T []
        (recursive_merge urlConf [] T [] [] 0).2.1
        (recursive_merge urlConf [] T [] [] 0).2.2 := by
    simp [merge_all, merge_files]
  obtain ⟨hs1, ht1⟩ := rm_url_state [] T [] [] 0
  have hall : ∀ u ∈ listUrls T,
      [KeyComp.url u] ∈ (recursive_merge urlConf [] T [] [] 0).2.1 :=
    fun u hu => (hs1 _).mpr (Or.inr ⟨u, hu, rfl⟩)
  obtain ⟨hs2, ht2⟩ := rm_url_state (recursive_merge urlConf [] T [] [] 0).1
    T [] (recursive_merge urlConf [] T [] [] 0).2.1
    (recursive_merge urlConf [] T [] [] 0).2.2
  constructor
  · intro u
    rw [hma, ht2 u]
    constructor
    · rintro (h | ⟨hu, _⟩)
      · rcases (ht1 u).mp h with h0 | ⟨hT, _⟩
        · exact absurd h0 (List.not_mem_nil u)
        · exact hT
      · exact hu
    · intro hu
      exact Or.inl ((ht1 u).mpr (Or.inr ⟨hu, List.not_mem_nil _⟩))
  · intro hnd
    rw [hma]
    have hd1 : (recursive_merge urlConf [] T [] [] 0).2.2 = 0 :=
      rm_nodup_no_dups T hnd [] [] [] 0 (fun u _ => List.not_mem_nil _)
    have hd2 := rm_all_seen T (recursive_merge urlConf [] T [] [] 0).1 []
      (recursive_merge urlConf [] T [] [] 0).2.1
      (recursive_merge urlConf [] T [] [] 0).2.2 hall
    rw [hd2, hd1]
    omega

/-- Witness for the amended C8 at a concrete two-bookmark tree with
distinct URLs. -/
theorem merge_self_url_set_and_count_witness :
    (∀ u, u ∈ listUrls (merge_all urlConf
        [[Item.bookmark "a" (some "u1") none none,
          Item.bookmark "b" (some "u2") none none],
         [Item.bookmark "a" (some "u1") none none,
          Item.bookmark "b" (some "u2") none none]]).1 ↔
      u ∈ listUrls [Item.bookmark "a" (some "u1") none none,
        Item.bookmark "b" (some "u2") none none]) ∧
    (merge_all urlConf
        [[Item.bookmark "a" (some "u1") none none,
          Item.bookmark "b" (some "u2") none none],
         [Item.bookmark "a" (some "u1") none none,
          Item.bookmark "b" (some "u2") none none]]).2.2 =
      bmCounts [Item.bookmark "a" (some "u1") none none,
        Item.bookmark "b" (some "u2") none none] :=
  ⟨(merge_self_url_set_and_count
      [Item.bookmark "a" (some "u1") none none,
       Item.bookmark "b" (some "u2") none none]).1,
   (merge_self_url_set_and_count
      [Item.bookmark "a" (some "u1") none none,
       Item.bookmark "b" (some "u2") none none]).2
    (by simp [listUrls, itemUrls])⟩

/-- C2: the duplicate-equivalence key of a bookmark consists of exactly the
components selected by the enabled criteria in the fixed order path, url,
title (witnessed by the all-criteria key shape), and two bookmarks are
judged duplicates — their keys are equal — iff every selected component
agrees; in particular with `dedup_by_url` alone enabled, key equality is
exactly URL equality, regardless of folder path or title. -/
theorem get_key_duplicate_iff :
    (∀ (c : MergeConfig) (t1 t2 : String) (u1 u2 : Option String)
        (p1 p2 : List String),
      get_key c t1 u1 p1 = get_key c t2 u2 p2 ↔
        ((c.crit_folder = true → p1 = p2) ∧ (c.crit_url = true → u1 = u2) ∧
          (c.crit_title = true → t1 = t2))) ∧
    (∀ (rd : Bool) (t u p),
      get_key ⟨rd, true, true, true⟩ t u p =
        [KeyComp.path p, KeyComp.url u, KeyComp.title t]) ∧
    (∀ (rd : Bool) (t1 t2 : String) (u1 u2 : Option String)
        (p1 p2 : List String),
      get_key ⟨rd, false, false, true⟩ t1 u1 p1 =
          get_key ⟨rd, false, false, true⟩ t2 u2 p2 ↔ u1 = u2) := by
  refine ⟨fun c t1 t2 u1 u2 p1 p2 => ?_, fun rd t u p => rfl,
    fun rd t1 t2 u1 u2 p1 p2 => ?_⟩
  · obtain ⟨rd, cf, ct, cu⟩ := c
    cases cf <;> cases ct <;> cases cu <;> simp [get_key]
  · simp [get_key]

/-- C7: `escape_html` substitutes exactly the three characters `&`, `<`,
`>` by their entities and leaves every other character untouched — the
character-wise form shows the ampersand substitution (done first in the
source) never rewrites the entities introduced for `<` and `>` — and the
title `"A & B < C > D"` serializes to `"A &amp; B &lt; C &gt; D"`. -/
theorem escape_html_exactly_three :
    (∀ s : String, escape_html s = String.mk (s.data.flatMap escCharSpec)) ∧
    escape_html "A & B < C > D" = "A &amp; B &lt; C &gt; D" := by
  constructor
  · intro s
    simp [escape_html, escapeChars_eq_flatMap]
  · rfl

/-- C9 fails on the code: a bookmark whose url is missing serializes with
`HREF="None"` (Python's `str(None)` inside the f-string), so re-extraction
returns url `"None"` instead of the missing url — the titles of the tree
use only the escaped symbols, yet the round trip does not reproduce the
tree. -/
theorem serialize_reextract_roundtrip_cex :
    read_bookmarks (serializeString [Item.bookmark "&" none none none]) =
      [Item.bookmark "&" (some "None") none none] ∧
    read_bookmarks (serializeString [Item.bookmark "&" none none none]) ≠
      [Item.bookmark "&" none none none] := by
  have hs : serializeString [Item.bookmark "&" none none none] =
      serializeString [Item.bookmark "&" (some "None") none none] := by
    simp [serializeString, allChunks, chunksChars, write_items, pyStr]
  have hwf : wfItems [Item.bookmark "&" (some "None") none none] = true := by
    simp [wfItems, wfItem, wfOpt, noQuote]
  have hr := roundtrip_of_wf [Item.bookmark "&" (some "None") none none] hwf
  rw [hs, hr]
  exact ⟨rfl, by simp⟩

/-- C9 amended: serializing with `generate_netscape_html` and re-extracting
with `parse_bookmarks` (through the modelled reader) reproduces the tree
exactly — titles unrestricted, escaping included — provided every bookmark
has a present, quote-free url and every optional attribute is absent or a
nonempty quote-free string.  A missing url round-trips to the literal url
`"None"` instead. -/
theorem serialize_reextract_roundtrip (bookmarks : List Item)
    (hwf : wfItems bookmarks = true) :
    read_bookmarks (serializeString bookmarks) = bookmarks :=
  roundtrip_of_wf bookmarks hwf

/-- C9 witness: a concrete nested tree with escaped characters in titles
and url round-trips exactly. -/
theorem serialize_reextract_roundtrip_witness :
    wfItems [Item.folder "Work & Play" none none
      [Item.bookmark "a<b" (some "http://x/?a=1&b=2") none none]] = true ∧
    read_bookmarks (serializeString [Item.folder "Work & Play" none none
      [Item.bookmark "a<b" (some "http://x/?a=1&b=2") none none]]) =
      [Item.folder "Work & Play" none none
        [Item.bookmark "a<b" (some "http://x/?a=1&b=2") none none]] :=
  ⟨by simp [wfItems, wfItem, wfOpt, noQuote],
   serialize_reextract_roundtrip _ (by simp [wfItems, wfItem, wfOpt, noQuote])⟩

end BookmarkMerger
